import Mathlib

/-!
# Verification of the log-checker retrieval-and-clustering engine

Shallow embedding of the core of the `log-checker-mcp` repository:

* `src/utils/chunking_utils.py` — overlapping character chunking
* `src/utils/error_extraction.py` — fingerprint normalization and severity ranking
* `src/utils/faiss_utils.py` — vector-index topology selection and search wrapper
* `src/server.py` — embedding cache, hybrid retrieval, cluster ranking

Text is modelled as `List Char`; Python `int` as `Int`/`Nat`; fallible code
returns `Except`.  Floating-point similarity values are modelled as `ℚ`
inputs where only their ordering and arithmetic combination matters.
-/

namespace LogChecker

/-! ## Chunking (`src/utils/chunking_utils.py`)

`validate_chunker(size, overlap)` raises `ValueError` when `size <= 0`,
`overlap < 0`, or `overlap >= size` (lines 11-27). -/

/-- Python `ValueError` raised by `validate_chunker`. -/
inductive ChunkError where
  | invalidParameters (msg : String)
deriving DecidableEq, Repr

/-- `validate_chunker` from `chunking_utils.py` lines 11-27. -/
def validate_chunker (size overlap : Int) : Except ChunkError Unit :=
  if size ≤ 0 then .error (.invalidParameters "chunk_size must be > 0")
  else if overlap < 0 then .error (.invalidParameters "overlap must be >= 0")
  else if overlap ≥ size then .error (.invalidParameters "overlap must be < chunk_size")
  else .ok ()

/-- The loop of `chunks_chars_mem` (lines 79-88), acting on the suffix
`t = text[i:]`:

```
while i < n:
    out.append(text[i:i+size])
    if i + size >= n: break
    i += step
```

The `step = 0` branch is unreachable after `validate_chunker` (which forces
`step = size - overlap ≥ 1`); it is present only to make the recursion total. -/
def chunksCharsGo (size step : Nat) (t : List Char) : List (List Char) :=
  if t.length = 0 then []
  else if t.length ≤ size then [t.take size]
  else if step = 0 then []
  else t.take size :: chunksCharsGo size step (t.drop step)
termination_by t.length
decreasing_by simp only [List.length_drop]; omega

/-- `chunks_chars_mem` from `chunking_utils.py` lines 66-88: validate, then
window the text with stride `size - overlap`. -/
def chunks_chars_mem (text : List Char) (size overlap : Int) :
    Except ChunkError (List (List Char)) := do
  validate_chunker size overlap
  pure (chunksCharsGo size.toNat (size - overlap).toNat text)

/-- The reconstruction operator named by the spec: concatenate the chunks,
trimming `overlap` characters from the front of each chunk after the first. -/
def trimJoin (overlap : Nat) : List (List Char) → List Char
  | [] => []
  | c :: cs => c ++ (cs.map (fun x => x.drop overlap)).flatten

/-! ## Substring containment

Python's `needle in haystack` on strings, used by the severity ranker, the
intent classifier and the frame detector. -/

/-- `needle in haystack` for Python strings (`""` is contained in anything). -/
def containsSub (needle : List Char) : List Char → Bool
  | [] => needle.isEmpty
  | c :: t => needle.isPrefixOf (c :: t) || containsSub needle t

/-! ## Severity ranking (`src/utils/error_extraction.py` lines 284-306) -/

/-- `universal_severity_rank(err_type, msg)`: keyword-based ordinal in `0..5`
computed over `f"{err_type} {msg}".lower()`. -/
def universal_severity_rank (err_type msg : List Char) : Nat :=
  let s := (err_type ++ ' ' :: msg).map Char.toLower
  if ["fatal", "panic", "outofmemory", "out of memory", "segfault", "emerg"].any
      (fun k => containsSub k.toList s) then 5
  else if ["crash", "deadlock", "data loss", "corrupt"].any
      (fun k => containsSub k.toList s) then 4
  else if ["timeout", "deadline", "nullpointer", "null pointer", "unauthorized",
           "permission", "access denied"].any (fun k => containsSub k.toList s) then 3
  else if ["error", "exception", "assert"].any (fun k => containsSub k.toList s) then 2
  else if ["warn", "warning"].any (fun k => containsSub k.toList s) then 1
  else 0

/-! ## Cluster ranking (`src/server.py` lines 739-756)

`cluster_list.sort(key=lambda c: (c["severity"], c["freq"]), reverse=True)`:
a stable sort, descending on the lexicographic key `(severity, freq)`.
The entries of `cluster_list` carry fingerprint, error type, frequency,
severity, paths and a distinct-message count. -/

structure Cluster where
  fingerprint : String
  error_type : List Char
  freq : Nat
  severity : Nat
  paths : List String
  unique_messages : Nat
deriving DecidableEq, Repr

/-- `a` may precede `b` in the ranked list: descending lexicographic
comparison of `(severity, freq)`, mirroring `sort(..., reverse=True)`. -/
def clusterRel (a b : Cluster) : Prop :=
  b.severity < a.severity ∨ (b.severity = a.severity ∧ b.freq ≤ a.freq)

instance : DecidableRel clusterRel := fun a b => by
  unfold clusterRel
  exact inferInstance

instance : IsTotal Cluster clusterRel :=
  ⟨fun a b => by
    unfold clusterRel
    omega⟩

instance : IsTrans Cluster clusterRel :=
  ⟨fun a b c hab hbc => by
    unfold clusterRel at hab hbc ⊢
    omega⟩

/-- The ranking sort of `query_SFlogs` (a stable sort on the descending
`(severity, freq)` key). -/
def rankClusters (cs : List Cluster) : List Cluster :=
  List.insertionSort clusterRel cs

/-- The three clusters of the claim's concrete instance: severities
`[5, 2, 2]` (computed by `universal_severity_rank` on realistic inputs) and
frequencies `[1, 10, 3]`, listed here in a deliberately scrambled order. -/
def exampleClusters : List Cluster :=
  [⟨"fp-verr-b", "ValueError".toList, 3,
      universal_severity_rank "ValueError".toList "ValueError: bad input".toList, [], 1⟩,
   ⟨"fp-oom", "OutOfMemoryError".toList, 1,
      universal_severity_rank "OutOfMemoryError".toList
        "java.lang.OutOfMemoryError: Java heap space".toList, [], 1⟩,
   ⟨"fp-verr-a", "ValueError".toList, 10,
      universal_severity_rank "ValueError".toList "ValueError: bad value".toList, [], 1⟩]

/-! ## Vector index (`src/utils/faiss_utils.py`)

Vector components are modelled as `ℚ` (stand-ins for `float32`; only their
arithmetic combination and ordering matter to the claims).  The FAISS
library itself is an external collaborator: the raw ANN search
`self.index.search(query, k)` is a parameter `faissSearch` returning
(row id, distance) pairs, and `np.exp(-d)` is a parameter `expNeg`. -/

structure FAISSIndexState (μ : Type) where
  dimension : Nat
  index_type : String
  nlist : Nat
  nprobe : Nat
  index : Option (List (List ℚ))
  metadata : List μ
  is_trained : Bool
deriving DecidableEq, Repr

/-- `FAISSIndex.__init__` (lines 28-52): no index, no metadata, untrained. -/
def FAISSIndex.mk_init (μ : Type) (dimension : Nat) (index_type : String)
    (nlist nprobe : Nat) : FAISSIndexState μ :=
  { dimension := dimension
    index_type := index_type
    nlist := nlist
    nprobe := nprobe
    index := none
    metadata := []
    is_trained := false }

/-- `FAISSIndex.build` (lines 86-123): check lengths and dimension (numpy
rows are uniform, so `vectors.shape[1]` is the first row's length), train
when the type is IVF-like, store vectors and metadata. -/
def FAISSIndex.build (st : FAISSIndexState μ) (vectors : List (List ℚ))
    (metadata : List μ) : Except String (FAISSIndexState μ) :=
  if vectors.length ≠ metadata.length then
    .error "Number of vectors must match metadata length"
  else if (vectors.headD []).length ≠ st.dimension then
    .error "Vector dimension does not match index dimension"
  else
    .ok { st with
          index := some vectors
          metadata := metadata
          is_trained := if st.index_type = "IVFFlat" ∨ st.index_type = "IVFPQ"
                        then true else st.is_trained }

/-- One search result: a metadata row enriched with the raw L2 distance and
the `exp(-distance)` similarity (lines 157-167). -/
structure SearchHit (μ : Type) where
  meta : μ
  distance : ℚ
  similarity : ℚ

/-- `FAISSIndex.search` (lines 125-173): empty or unbuilt index returns
`([], None)`; otherwise `k` is clamped to `ntotal`, the library search runs,
and only row ids within `[0, len(metadata))` are kept. -/
def FAISSIndex.search (st : FAISSIndexState μ)
    (faissSearch : List (List ℚ) → List ℚ → Nat → List (Int × ℚ))
    (expNeg : ℚ → ℚ) (q : List ℚ) (k : Nat) :
    List (SearchHit μ) × Option (List ℚ) :=
  match st.index with
  | none => ([], none)
  | some vecs =>
    if vecs.length = 0 then ([], none)
    else
      let kk := min k vecs.length
      let pairs := faissSearch vecs q kk
      let results := pairs.filterMap (fun p =>
        if h : 0 ≤ p.1 ∧ p.1.toNat < st.metadata.length then
          some { meta := st.metadata.get ⟨p.1.toNat, h.2⟩
                 distance := p.2
                 similarity := expNeg p.2 }
        else none)
      (results, some (pairs.map Prod.snd))

/-- `create_faiss_index_from_vectors` (lines 313-363): corpus-size-driven
topology selection (`dimension` auto-detected from the first row), then
`build`.  The Python computes `nlist`/`nprobe` as `None` for the flat branch
and fills them with `nlist or 100` / `nprobe or 10` at construction. -/
def create_faiss_index_from_vectors (vectors : List (List ℚ)) (metadata : List μ)
    (index_type : String) : Except String (FAISSIndexState μ) :=
  let dimension := (vectors.headD []).length
  let n := vectors.length
  if n < 1000 then
    FAISSIndex.build (FAISSIndex.mk_init μ dimension "Flat" 100 10) vectors metadata
  else if n < 10000 then
    let nlist := min 100 (n / 10)
    FAISSIndex.build (FAISSIndex.mk_init μ dimension index_type nlist (min 10 nlist))
      vectors metadata
  else
    let nlist := min 1000 (n / 50)
    FAISSIndex.build (FAISSIndex.mk_init μ dimension index_type nlist (min 20 nlist))
      vectors metadata

/-- A small concrete corpus for the C5 witness. -/
def exVectors : List (List ℚ) := [[1, 0], [0, 1]]

/-- Metadata rows matching `exVectors`. -/
def exMetadata : List String := ["a", "b"]

/-- A concrete built flat index over two stored vectors for the C9 witness. -/
def exBuiltIndex : FAISSIndexState String :=
  { dimension := 2
    index_type := "Flat"
    nlist := 100
    nprobe := 10
    index := some [[1, 0], [0, 1]]
    metadata := ["m0", "m1"]
    is_trained := false }

/-- A concrete stand-in for the FAISS library search in the C9 witness. -/
def exFaissSearch : List (List ℚ) → List ℚ → Nat → List (Int × ℚ) :=
  fun _ _ _ => [(0, 1 / 2), (1, 2)]

/-! ## Embedding cache and the vectorize operation (`src/server.py`)

`store_chunks_as_vectors(use_cache, clear_cache)` (lines 346-360):

```
cache = EmbeddingCache() if use_cache else None
if clear_cache and cache:
    cache.clear()          # EmbeddingCache defines no `clear` - AttributeError
    cache = EmbeddingCache()
```

The `EmbeddingCache` constructor only reads the two cache files (creating
the cache *directory* if missing); it never writes them.  Everything after
the `clear_cache` block (chunk collection, embedding, index build) is the
continuation `rest`. -/

/-- Python `AttributeError`. -/
inductive PyError where
  | attributeError (name : String)
deriving DecidableEq, Repr

/-- Method and attribute names defined by `class EmbeddingCache`
(server.py lines 64-165). `clear` is not among them. -/
def embeddingCacheMethods : List String :=
  ["__init__", "_load_cache", "_load_stats", "_save_cache", "_save_stats",
   "get_hash", "get", "set", "save", "get_stats",
   "cache_dir", "cache_file", "stats_file", "cache", "stats"]

/-- Attribute lookup on an `EmbeddingCache` instance: missing attributes
raise `AttributeError`. -/
def callCacheMethod (name : String) : Except PyError Unit :=
  if name ∈ embeddingCacheMethods then .ok () else .error (.attributeError name)

/-- The persisted embedding-cache artifacts: the key-to-vector file and the
stats file (absent when never written). -/
structure CacheDisk where
  embeddings : Option (List (String × List ℚ))
  stats : Option (List (String × Nat))
deriving DecidableEq

/-- `EmbeddingCache.__init__`: load the key-to-vector map from disk, falling
back to empty; no disk write. -/
def loadEmbeddingCache (disk : CacheDisk) : List (String × List ℚ) :=
  disk.embeddings.getD []

/-- Outcome of one `store_chunks_as_vectors` call: the Python result or
exception, the cache files on disk afterwards, and how many chunks were
embedded during the call. -/
structure StoreOutcome (ρ : Type) where
  result : Except PyError ρ
  disk : CacheDisk
  embeddedChunks : Nat

/-- `store_chunks_as_vectors` (lines 346-360): construct the cache when
`use_cache`, then — before any chunk is read or embedded — call the
(nonexistent) `clear` method when `clear_cache` and the cache is set.  The
whole remainder of the operation is the continuation `rest`. -/
def store_chunks_as_vectors (ρ : Type) (use_cache clear_cache : Bool)
    (disk : CacheDisk)
    (rest : Option (List (String × List ℚ)) → CacheDisk → StoreOutcome ρ) :
    StoreOutcome ρ :=
  let cache : Option (List (String × List ℚ)) :=
    if use_cache then some (loadEmbeddingCache disk) else none
  if clear_cache ∧ cache.isSome then
    match callCacheMethod "clear" with
    | .error e =>
        { result := .error e
          disk := disk
          embeddedChunks := 0 }
    | .ok _ => rest cache disk
  else rest cache disk

/-! ## Hybrid retrieval (`src/server.py`, `query_SFlogs` lines 538-664)

Word tokenization: the scorer builds word sets with
`set(re.findall(r"\w+", text.lower()))` — maximal runs of regex word
characters (ASCII approximation of Python `\w`). -/

/-- ASCII `\w`: the word characters of Python's `re` module. -/
def isWordChar (c : Char) : Bool := c.isAlpha || c.isDigit || c = '_'

/-- Fuel-driven scanner for maximal runs of characters satisfying `p`; the
fuel keeps the recursion structural (hence kernel-computable) and is
irrelevant as soon as it dominates the list length. -/
def runsByF (p : Char → Bool) : Nat → List Char → List (List Char)
  | 0, _ => []
  | _ + 1, [] => []
  | fuel + 1, c :: t =>
    if p c then (c :: t.takeWhile p) :: runsByF p fuel (t.dropWhile p)
    else runsByF p fuel t

/-- Maximal runs of characters satisfying `p` (the matches of `p+`). -/
def runsBy (p : Char → Bool) (l : List Char) : List (List Char) :=
  runsByF p l.length l

/-- `re.findall(r"\w+", s)`. -/
def wordTokens (s : List Char) : List (List Char) := runsBy isWordChar s

/-- `set(re.findall(r"\w+", s.lower()))`, as a duplicate-free token list. -/
def wordSet (s : List Char) : List (List Char) :=
  (wordTokens (s.map Char.toLower)).dedup

/-- The lexical component of the hybrid score:
`len(q_words & words_in_chunk) / max(len(q_words), 1)` (lines 597 and 642). -/
def lexOf (query txt : List Char) : ℚ :=
  (((wordSet query).filter (fun w => w ∈ wordSet txt)).length : ℚ)
    / (max (wordSet query).length 1 : ℚ)

/-- Modelled from the claim's words, for refinement comparison only: the
lexical overlap computed over *whitespace-tokenized* lowercase word sets. -/
def lexOfWhitespaceSpec (query txt : List Char) : ℚ :=
  let qw := (runsBy (fun c => !c.isWhitespace) (query.map Char.toLower)).dedup
  let cw := (runsBy (fun c => !c.isWhitespace) (txt.map Char.toLower)).dedup
  ((qw.filter (fun w => w ∈ cw)).length : ℚ) / (max qw.length 1 : ℚ)

/-- The keyword list of `is_summarization_query` (server.py lines 179-187). -/
def summaryKeywords : List String :=
  ["summarize", "summary", "overview", "what happened", "give me a summary",
   "summarise", "sum up", "recap", "walk me through", "key events", "aggregate",
   "overall", "root cause", "rca", "all errors", "list errors"]

/-- `is_summarization_query(query)`. -/
def is_summarization_query (query : List Char) : Bool :=
  summaryKeywords.any (fun k => containsSub k.toList (query.map Char.toLower))

/-- `is_all_errors` (line 572). -/
def isAllErrorsQuery (query : List Char) : Bool :=
  ["all errors", "all unique", "list errors"].any
    (fun k => containsSub k.toList (query.map Char.toLower))

/-- The repeated guard `if is_all_errors or is_summary`. -/
def summaryIntent (query : List Char) : Bool :=
  isAllErrorsQuery query || is_summarization_query query

/-- The intent-selected score threshold (lines 612 and 657). -/
def scoreThreshold (query : List Char) : ℚ :=
  if summaryIntent query then 0.15 else 0.20

/-- One retrieved item (`{score, path, chunk, semantic, lexical}`). -/
structure Retrieved where
  score : ℚ
  path : String
  chunk : List Char
  semantic : ℚ
  lexical : ℚ
deriving DecidableEq, Repr

/-- One FAISS search result row as consumed by the index path:
`result["similarity"]`, `result.get("path")`, `result.get("text", "")`. -/
structure FaissResultRow where
  similarity : ℚ
  path : String
  text : List Char
deriving DecidableEq, Repr

/-- Index-path hybrid scoring (lines 593-609). -/
def indexScored (query : List Char) (results : List FaissResultRow) :
    List Retrieved :=
  results.map (fun r =>
    let sem := r.similarity
    let lex := lexOf query r.text
    { score := if summaryIntent query then 0.6 * sem + 0.25 * lex
               else 0.7 * sem + 0.2 * lex
      path := r.path
      chunk := r.text
      semantic := sem
      lexical := lex })

/-- Index-path threshold filter (lines 611-613). -/
def indexThresholdFiltered (query : List Char) (results : List FaissResultRow) :
    List Retrieved :=
  (indexScored query results).filter
    (fun r => decide (scoreThreshold query ≤ r.score))

/-- Index-path selection with underflow relaxation (lines 611-624): when
fewer than 10 items survive the threshold — with no condition on the
candidate count — the first `min(50, len(results))` raw FAISS results are
returned with `score = semantic = similarity` and `lexical = 0.0`. -/
def indexPathRetrieve (query : List Char) (results : List FaissResultRow) :
    List Retrieved :=
  if (indexThresholdFiltered query results).length < 10 then
    (results.take (min 50 results.length)).map (fun r =>
      { score := r.similarity
        path := r.path
        chunk := r.text
        semantic := r.similarity
        lexical := 0 })
  else indexThresholdFiltered query results

/-- One entry of the loaded vector snapshot (`entry.get("path")`,
`entry.get("text", "")`, `entry.get("vector", [])`). -/
structure VecEntry where
  path : String
  text : List Char
  vector : List ℚ
deriving DecidableEq, Repr

/-- Brute-force-fallback scoring (lines 632-652): entries with empty vectors
are skipped; `semantic` is the external `cosine_similarity` capability
`semF` (its float/sqrt internals are not modelled), `lexical` is the `\w+`
word-set overlap, and the weights are selected by intent. -/
def fallbackScores (semF : List ℚ → List ℚ → ℚ) (query : List Char)
    (qVec : List ℚ) (data : List VecEntry) : List Retrieved :=
  (data.filter (fun e => !e.vector.isEmpty)).map (fun e =>
    let sem := semF qVec e.vector
    let lex := lexOf query e.text
    { score := if summaryIntent query then 0.6 * sem + 0.25 * lex
               else 0.7 * sem + 0.2 * lex
      path := e.path
      chunk := e.text
      semantic := sem
      lexical := lex })

/-- Descending-score order on retrieved items. -/
def scoreGE (a b : Retrieved) : Prop := b.score ≤ a.score

instance : DecidableRel scoreGE := fun a b => by
  unfold scoreGE
  infer_instance

instance : IsTotal Retrieved scoreGE :=
  ⟨fun a b => by
    unfold scoreGE
    exact (le_total b.score a.score)⟩

instance : IsTrans Retrieved scoreGE :=
  ⟨fun a b c hab hbc => by
    unfold scoreGE at hab hbc ⊢
    exact le_trans hbc hab⟩

/-- `scored.sort(key=lambda x: x["score"], reverse=True)` (line 654). -/
def sortByScore (rs : List Retrieved) : List Retrieved :=
  List.insertionSort scoreGE rs

/-- `top_k = min(150 if is_all_errors or is_summary else 75, len(scored))`
(line 656). -/
def fallbackTopK (query : List Char) (n : Nat) : Nat :=
  min (if summaryIntent query then 150 else 75) n

/-- Fallback-path threshold filter over the top-k sorted items (line 659). -/
def fallbackFiltered (query : List Char) (scored : List Retrieved) :
    List Retrieved :=
  ((sortByScore scored).take (fallbackTopK query scored.length)).filter
    (fun r => decide (scoreThreshold query ≤ r.score))

/-- Fallback-path selection with underflow relaxation (lines 659-662): here
the relaxation additionally requires more than 10 pre-filter candidates. -/
def fallbackSelect (query : List Char) (scored : List Retrieved) :
    List Retrieved :=
  if (fallbackFiltered query scored).length < 10 ∧ 10 < scored.length then
    (sortByScore scored).take (min 50 scored.length)
  else fallbackFiltered query scored

/-- A plain query without summary or all-errors intent. -/
def exQueryC1 : List Char := "find the widget".toList

/-- A single low-scoring FAISS result row. -/
def exRowC1 : FaissResultRow := ⟨1 / 20, "p.txt", "completely unrelated".toList⟩

/-- A single high-scoring FAISS result row for the C1 witness. -/
def exRowC1b : FaissResultRow := ⟨9 / 10, "q.txt", "hello".toList⟩

/-- A concrete snapshot entry for the C8 witness. -/
def exEntryC8 : VecEntry := ⟨"log1.txt", "widget the gizmo".toList, [1, 0]⟩

/-! ## Fingerprint normalization (`src/utils/error_extraction.py` lines 11-32)

The three substitution regexes run in order on the raw block text:

```
_ID_UUID_RE = \b hex{8}-hex{4}-[1-5]hex{3}-[89ab]hex{3}-hex{12} \b   → <UUID>
_ID_HEX_RE  = \b [0-9a-f]{8,} \b                                     → <HEX>
_NUM_RE     = \b \d+ \b                                              → <NUM>
```

all with `re.IGNORECASE`.  `\b` is a `\w`/non-`\w` transition, so a `HEX`
(`NUM`) match is exactly a maximal word-character run that is all
hexadecimal (all decimal) of the required length, and a `UUID` match is the
dash-joined group structure flanked by word boundaries.  No pattern can
match across a newline, none of the replacement texts `<UUID>`, `<HEX>`,
`<NUM>` contains a hexadecimal run of length 8, a numeral, or a UUID shape,
and a replacement is bracketed by the non-word characters `<`/`>`, so the
three sequential passes over a line are equivalent to the single
left-to-right scan `collapseLine` below (UUID tried first at each word-run
start, then the run classification). -/

/-- `[0-9a-f]` with `re.IGNORECASE` (`'a'..'f'` is 97-102, `'A'..'F'` is
65-70). -/
def isHexChar (c : Char) : Bool :=
  c.isDigit || (c.val ≥ 97 && c.val ≤ 102) || (c.val ≥ 65 && c.val ≤ 70)

/-- Hex digit or the UUID group separator. -/
def isHexDash (c : Char) : Bool := isHexChar c || c = '-'

/-- The replacement class of a maximal word run: `<HEX>` for all-hex runs of
length at least 8 (checked first, so long numerals become `<HEX>`), `<NUM>`
for all-digit runs, `none` for runs that are kept verbatim. -/
def wordClass (w : List Char) : Option (List Char) :=
  if w.all isHexChar && decide (8 ≤ w.length) then some "<HEX>".toList
  else if w.all Char.isDigit then some "<NUM>".toList
  else none

/-- Substitute one maximal word run. -/
def substTok (w : List Char) : List Char := (wordClass w).getD w

/-- `[1-5]`: the UUID version nibble. -/
def uuidVersionOK (c : Char) : Bool := decide ('1' ≤ c ∧ c ≤ '5')

/-- `[89ab]` with `re.IGNORECASE`: the UUID variant nibble. -/
def uuidVariantOK (c : Char) : Bool := decide (c ∈ ['8', '9', 'a', 'b', 'A', 'B'])

/-- The 36-character body of `_ID_UUID_RE`:
`hex{8} - hex{4} - [1-5]hex{3} - [89ab]hex{3} - hex{12}` (positions
0-7, 8, 9-12, 13, 14-17, 18, 19-22, 23, 24-35). -/
def uuidShape (u : List Char) : Bool :=
  u.length == 36 &&
  (u.take 8).all isHexChar && u.getD 8 ' ' == '-' &&
  ((u.drop 9).take 4).all isHexChar && u.getD 13 ' ' == '-' &&
  uuidVersionOK (u.getD 14 ' ') && ((u.drop 15).take 3).all isHexChar &&
  u.getD 18 ' ' == '-' &&
  uuidVariantOK (u.getD 19 ' ') && ((u.drop 20).take 3).all isHexChar &&
  u.getD 23 ' ' == '-' &&
  ((u.drop 24).take 12).all isHexChar

/-- The trailing `\b` of `_ID_UUID_RE`: end of text, or a non-word
character next. -/
def uuidBoundaryOK : List Char → Bool
  | [] => true
  | d :: _ => !isWordChar d

/-- Try to match `_ID_UUID_RE` at the current position (which the caller
guarantees is a word boundary); on success return the rest after the 36
matched characters. -/
def uuidSplit (l : List Char) : Option (List Char) :=
  if uuidShape (l.take 36) && uuidBoundaryOK (l.drop 36) then some (l.drop 36)
  else none

/-- The combined substitution scan (fuel-driven for structural recursion;
the fuel is irrelevant once it dominates the list length). -/
def collapseF : Nat → List Char → List Char
  | 0, _ => []
  | _ + 1, [] => []
  | fuel + 1, c :: t =>
    if isWordChar c then
      match uuidSplit (c :: t) with
      | some rest => "<UUID>".toList ++ collapseF fuel rest
      | none =>
          substTok ((c :: t).takeWhile isWordChar)
            ++ collapseF fuel ((c :: t).dropWhile isWordChar)
    else c :: collapseF fuel t

/-- The UUID/HEX/NUM substitutions of `normalize_text_for_fingerprint`
applied to one line (the patterns cannot cross newlines, and extractor
blocks are `'\n'.join`s of newline-free lines). -/
def collapseLine (l : List Char) : List Char := collapseF l.length l

/-- Python `str.strip()`. -/
def pyStrip (l : List Char) : List Char :=
  (l.dropWhile Char.isWhitespace).rdropWhile Char.isWhitespace

/-- `normalize_text_for_fingerprint(s, limit)` on a newline-free line:
substitute, strip, lowercase, truncate (the `'\r\n' → '\n'` replacement is a
no-op on such a line). -/
def normalize_text_for_fingerprint (s : List Char) (limit : Nat) : List Char :=
  ((pyStrip (collapseLine s)).map Char.toLower).take limit

/-! ## Error-type extraction (`error_extraction.py` lines 214-216, 250-253)

`_ERR_TYPE_EXTRACT_RE` = `([A-Za-z_][A-Za-z0-9_\.]*Exception
|System\.\w+Exception|Apex\.\w+Exception|Error|ERROR|FATAL)`, IGNORECASE.
The `System\.`/`Apex\.` alternatives are subsumed by the first alternative
(their characters all lie in `[A-Za-z0-9_.]` and they end in `Exception`),
and `Error|ERROR|FATAL` under IGNORECASE are the two case-insensitive
five-letter words.  `re.search` returns the leftmost match; at one position
the first alternative is preferred, and its greedy star takes the longest
extent ending (case-insensitively) in `exception`. -/

/-- `[A-Za-z0-9_\.]`, the class of the first alternative's star. -/
def allowedTypeChar (c : Char) : Bool := c.isAlpha || c.isDigit || c = '_' || c = '.'

/-- The largest match length `e` (at least `1 + 0 + 9`) such that the first
`e` characters of the region end case-insensitively in `exception`. -/
def exceptionPrefixLen (region : List Char) : Option Nat :=
  ((List.range (region.length + 1)).filter (fun e =>
      decide (10 ≤ e) &&
        ("exception".toList).isSuffixOf ((region.take e).map Char.toLower))).getLast?

/-- The first alternative `[A-Za-z_][A-Za-z0-9_\.]*Exception` at one
position. -/
def tryAlt1 (c : Char) (t : List Char) : Option (List Char) :=
  if c.isAlpha || c = '_' then
    let region := c :: t.takeWhile allowedTypeChar
    (exceptionPrefixLen region).map (fun e => region.take e)
  else none

/-- The `Error|ERROR|FATAL` alternatives (case-insensitive) at one
position. -/
def tryErrorFatal (l : List Char) : Option (List Char) :=
  if (l.take 5).map Char.toLower = "error".toList then some (l.take 5)
  else if (l.take 5).map Char.toLower = "fatal".toList then some (l.take 5)
  else none

/-- `re.search` for the error-type pattern over one line: leftmost position
wins, first alternative preferred. -/
def errTypeSearchF : Nat → List Char → Option (List Char)
  | 0, _ => none
  | _ + 1, [] => none
  | fuel + 1, c :: t =>
    match tryAlt1 c t with
    | some m => some m
    | none =>
      match tryErrorFatal (c :: t) with
      | some m => some m
      | none => errTypeSearchF fuel t

/-- Search one line. -/
def errTypeSearchLine (l : List Char) : Option (List Char) :=
  errTypeSearchF l.length l

/-- `m = RE.search(head) or RE.search(block_text); err_type = m.group(0) if m
else meta["type"]`.  Searching the joined block text equals searching the
lines in order, since the pattern cannot cross a newline. -/
def errTypeOf (metaType : List Char) (lines : List (List Char)) : List Char :=
  (match errTypeSearchLine (lines.headD []) with
   | some m => some m
   | none => lines.findSome? errTypeSearchLine).getD metaType

/-! ## Frame extraction and the fingerprint source (lines 255-272) -/

/-- Is a line one of the up-to-five fingerprinted stack frames? -/
def isFrameLine (ln : List Char) : Bool :=
  ("at ".toList).isPrefixOf (ln.dropWhile Char.isWhitespace)
    || ("File ".toList).isPrefixOf (ln.dropWhile Char.isWhitespace)
    || containsSub ("Caused by:".toList) ln
    || containsSub ("StackTrace".toList) ln

/-- The first five frame lines after the head, stripped. -/
def frameLines (lines : List (List Char)) : List (List Char) :=
  (((lines.drop 1).filter isFrameLine).take 5).map pyStrip

/-- `sep.join(parts)`. -/
def joinSep (sep : Char) : List (List Char) → List Char
  | [] => []
  | [x] => x
  | x :: y :: xs => x ++ sep :: joinSep sep (y :: xs)

/-- `top_frames = "|".join(normalize_text_for_fingerprint(fl, 140) ...)`. -/
def topFrames (lines : List (List Char)) : List Char :=
  joinSep '|' ((frameLines lines).map (fun fl => normalize_text_for_fingerprint fl 140))

/-- `fp_src = err_type + "|" + message_stem + "|" + top_frames`. -/
def fpSrc (metaType : List Char) (lines : List (List Char)) : List Char :=
  errTypeOf metaType lines
    ++ '|' :: normalize_text_for_fingerprint (lines.headD []) 220
    ++ '|' :: topFrames lines

/-! ## SHA-1 (`hashlib.sha1(s.encode("utf-8")).hexdigest()`)

A direct embedding of FIPS 180 SHA-1 over the UTF-8 bytes, with 32-bit
words as naturals reduced modulo `2^32`. -/

/-- UTF-8 encoding of one code point. -/
def utf8EncodeCodePoint (n : Nat) : List Nat :=
  if n < 128 then [n]
  else if n < 2048 then [192 ||| (n >>> 6), 128 ||| (n &&& 63)]
  else if n < 65536 then
    [224 ||| (n >>> 12), 128 ||| ((n >>> 6) &&& 63), 128 ||| (n &&& 63)]
  else
    [240 ||| (n >>> 18), 128 ||| ((n >>> 12) &&& 63),
     128 ||| ((n >>> 6) &&& 63), 128 ||| (n &&& 63)]

/-- `s.encode("utf-8")`. -/
def utf8Bytes (s : List Char) : List Nat :=
  (s.map (fun c => utf8EncodeCodePoint c.toNat)).flatten

/-- Rotate a 32-bit word left by `n`. -/
def rotl32 (n x : Nat) : Nat :=
  ((x <<< n) ||| (x >>> (32 - n))) % 4294967296

/-- 64-bit big-endian length field. -/
def be64 (n : Nat) : List Nat :=
  [(n >>> 56) % 256, (n >>> 48) % 256, (n >>> 40) % 256, (n >>> 32) % 256,
   (n >>> 24) % 256, (n >>> 16) % 256, (n >>> 8) % 256, n % 256]

/-- SHA-1 padding: `0x80`, zeros to 56 mod 64, the bit length. -/
def sha1Pad (m : List Nat) : List Nat :=
  m ++ 128 :: List.replicate ((120 - ((m.length + 1) % 64)) % 64) 0
    ++ be64 (8 * m.length)

/-- Split into 64-byte blocks (fuel keeps the recursion structural). -/
def chunks64F : Nat → List Nat → List (List Nat)
  | 0, _ => []
  | _ + 1, [] => []
  | fuel + 1, l => l.take 64 :: chunks64F fuel (l.drop 64)

/-- The 16 big-endian 32-bit words of one 64-byte block. -/
def blockWords (b : List Nat) : List Nat :=
  (List.range 16).map (fun i =>
    (b.getD (4 * i) 0 <<< 24) ||| (b.getD (4 * i + 1) 0 <<< 16)
      ||| (b.getD (4 * i + 2) 0 <<< 8) ||| b.getD (4 * i + 3) 0)

/-- Extend 16 words to 80: `w[i] = rotl1(w[i-3] ^ w[i-8] ^ w[i-14] ^ w[i-16])`. -/
def sha1Extend : Nat → List Nat → List Nat
  | 0, ws => ws
  | n + 1, ws =>
    sha1Extend n (ws ++ [rotl32 1
      ((ws.getD (ws.length - 3) 0 ^^^ ws.getD (ws.length - 8) 0)
        ^^^ (ws.getD (ws.length - 14) 0 ^^^ ws.getD (ws.length - 16) 0))])

/-- One SHA-1 round. -/
def sha1Round (i w : Nat) : Nat × Nat × Nat × Nat × Nat → Nat × Nat × Nat × Nat × Nat :=
  fun st =>
    let a := st.1
    let b := st.2.1
    let c := st.2.2.1
    let d := st.2.2.2.1
    let e := st.2.2.2.2
    let f :=
      if i < 20 then (b &&& c) ||| ((b ^^^ 4294967295) &&& d)
      else if i < 40 then b ^^^ c ^^^ d
      else if i < 60 then (b &&& c) ||| (b &&& d) ||| (c &&& d)
      else b ^^^ c ^^^ d
    let k :=
      if i < 20 then 1518500249
      else if i < 40 then 1859775393
      else if i < 60 then 2400959708
      else 3395469782
    let temp := (rotl32 5 a + f + e + k + w) % 4294967296
    (temp, a, rotl32 30 b, c, d)

/-- Process one 64-byte block into the running hash state. -/
def sha1Block (h : List Nat) (b : List Nat) : List Nat :=
  let ws := sha1Extend 64 (blockWords b)
  let st := (List.range 80).foldl
    (fun st i => sha1Round i (ws.getD i 0) st)
    (h.getD 0 0, h.getD 1 0, h.getD 2 0, h.getD 3 0, h.getD 4 0)
  [(h.getD 0 0 + st.1) % 4294967296,
   (h.getD 1 0 + st.2.1) % 4294967296,
   (h.getD 2 0 + st.2.2.1) % 4294967296,
   (h.getD 3 0 + st.2.2.2.1) % 4294967296,
   (h.getD 4 0 + st.2.2.2.2) % 4294967296]

/-- SHA-1 of a byte sequence: 20 digest bytes. -/
def sha1Bytes (m : List Nat) : List Nat :=
  let padded := sha1Pad m
  let h := (chunks64F padded.length padded).foldl sha1Block
    [1732584193, 4023233417, 2562383102, 271733878, 3285377520]
  (h.map (fun w => [(w >>> 24) % 256, (w >>> 16) % 256, (w >>> 8) % 256, w % 256])).flatten

/-- One lowercase hex digit. -/
def hexDigitChar (n : Nat) : Char :=
  if n < 10 then Char.ofNat (48 + n) else Char.ofNat (87 + n)

/-- `hashlib.sha1(s.encode("utf-8")).hexdigest()`. -/
def sha1Hex (s : List Char) : List Char :=
  ((sha1Bytes (utf8Bytes s)).map (fun b => [hexDigitChar (b / 16), hexDigitChar (b % 16)])).flatten

/-- An extracted error event (`error_extraction.py` lines 274-280). -/
structure ErrorEvent where
  fingerprint : List Char
  error_type : List Char
  message : List Char
  excerpt : List Char
  path : Option String
deriving DecidableEq, Repr

/-- The per-block body of `extract_error_events_universal` (lines 250-280):
derive the error type, the normalized message stem, the normalized top-5
frames, hash them into the fingerprint, and build the event.  The block is
given as its list of (newline-free) lines, `metaType` is the extractor's
declared type tag. -/
def eventOfBlock (metaType : List Char) (path : Option String)
    (lines : List (List Char)) : ErrorEvent :=
  { fingerprint := sha1Hex (fpSrc metaType lines)
    error_type := errTypeOf metaType lines
    message := pyStrip (lines.headD [])
    excerpt := (joinSep '\n' lines).take 4000
    path := path }

/-! ## The claim's relation: blocks that differ only in embedded volatile
identifiers

Two lines are related when they decompose into the same non-word separator
characters and aligned maximal word runs that are either identical, or both
volatile of the same replacement class, or aligned UUID shapes.  This is
the direct reading of "differ only in embedded UUIDs, hexadecimal
identifiers of at least 8 characters, or decimal numerals". -/

/-- Fuel-driven relation scanner (structural recursion; fuel irrelevant once
it dominates the first list's length). -/
def diffOnlyIdsF : Nat → List Char → List Char → Bool
  | _, [], [] => true
  | _, [], _ :: _ => false
  | _, _ :: _, [] => false
  | 0, _ :: _, _ :: _ => false
  | fuel + 1, c1 :: t1, c2 :: t2 =>
    if isWordChar c1 && isWordChar c2 then
      match uuidSplit (c1 :: t1), uuidSplit (c2 :: t2) with
      | some r1, some r2 => diffOnlyIdsF fuel r1 r2
      | none, none =>
        let w1 := (c1 :: t1).takeWhile isWordChar
        let w2 := (c2 :: t2).takeWhile isWordChar
        (w1 == w2 || ((wordClass w1).isSome && wordClass w1 == wordClass w2)) &&
          diffOnlyIdsF fuel ((c1 :: t1).dropWhile isWordChar)
            ((c2 :: t2).dropWhile isWordChar)
      | _, _ => false
    else if !isWordChar c1 && !isWordChar c2 then
      c1 == c2 && diffOnlyIdsF fuel t1 t2
    else false

/-- Two lines differ only in embedded volatile identifiers. -/
def diffOnlyIds (l1 l2 : List Char) : Bool := diffOnlyIdsF l1.length l1 l2

/-- Two blocks differ only in embedded volatile identifiers: same line
structure, lines pairwise related. -/
def blocksDiffOnlyIds (b1 b2 : List (List Char)) : Bool :=
  b1.length == b2.length && (b1.zip b2).all (fun p => diffOnlyIds p.1 p.2)

/-- First counterexample block: a hexadecimal identifier embedded *inside*
the dotted token from which the error type is extracted. -/
def exBlockC3a : List (List Char) := ["x.11111111.FooException".toList]

/-- Second counterexample block: the same line with a different embedded
identifier. -/
def exBlockC3b : List (List Char) := ["x.22222222.FooException".toList]

/-- Witness blocks for the amended fingerprint-stability statement: the two
blocks differ only in a decimal identifier outside the extracted error
type. -/
def exBlockC3c : List (List Char) := ["NullPointerException: id 123".toList]

/-- Second witness block, with a different decimal identifier. -/
def exBlockC3d : List (List Char) := ["NullPointerException: id 456".toList]

/-! ## Theorems -/

theorem chunksCharsGo_length (step overlap : Nat) (hstep : 0 < step)
    (t : List Char) (ht : t ≠ []) :
    (chunksCharsGo (step + overlap) step t).length
      = max 1 ((t.length - overlap + step - 1) / step) := by
  rw [chunksCharsGo]
  have hlen : t.length ≠ 0 := by simpa using ht
  rw [if_neg hlen]
  by_cases hsmall : t.length ≤ step + overlap
  · rw [if_pos hsmall]
    have hdiv : (t.length - overlap + step - 1) / step ≤ 1 := by
      have : t.length - overlap + step - 1 < 2 * step := by omega
      have := (Nat.div_lt_iff_lt_mul hstep).2 this
      omega
    simp only [List.length_cons, List.length_nil]
    omega
  · rw [if_neg hsmall, if_neg (by omega : ¬ step = 0)]
    have hrest : t.drop step ≠ [] := by
      have : (t.drop step).length = t.length - step := List.length_drop step t
      intro hcon
      rw [hcon] at this
      simp at this
      omega
    have ih := chunksCharsGo_length step overlap hstep (t.drop step) hrest
    simp only [List.length_cons, ih, List.length_drop]
    have h1 : t.length - step - overlap + step - 1 = t.length - overlap - 1 := by omega
    have h2 : t.length - overlap + step - 1 = (t.length - overlap - 1) + step := by omega
    rw [h1, h2, Nat.add_div_right _ hstep]
    have h3 : 1 ≤ (t.length - overlap - 1) / step :=
      (Nat.one_le_div_iff hstep).2 (by omega)
    omega
termination_by t.length
decreasing_by simp only [List.length_drop]; omega

theorem chunksCharsGo_trim_tail (step overlap : Nat) (hstep : 0 < step)
    (t : List Char) :
    ((chunksCharsGo (step + overlap) step t).map (fun x => x.drop overlap)).flatten
      = t.drop overlap := by
  rw [chunksCharsGo]
  by_cases hnil : t.length = 0
  · rw [if_pos hnil]
    have : t = [] := List.length_eq_zero.mp hnil
    simp [this]
  · rw [if_neg hnil]
    by_cases hsmall : t.length ≤ step + overlap
    · rw [if_pos hsmall]
      simp [List.take_of_length_le hsmall]
    · rw [if_neg hsmall, if_neg (by omega : ¬ step = 0)]
      have ih := chunksCharsGo_trim_tail step overlap hstep (t.drop step)
      simp only [List.map_cons, List.flatten_cons, ih]
      rw [List.drop_take, List.drop_drop]
      have h1 : step + overlap - overlap = step := by omega
      rw [h1, Nat.add_comm step overlap, ← List.drop_drop]
      exact List.take_append_drop step (t.drop overlap)
termination_by t.length
decreasing_by simp only [List.length_drop]; omega

theorem chunksCharsGo_trimJoin (step overlap : Nat) (hstep : 0 < step)
    (t : List Char) (ht : t ≠ []) :
    trimJoin overlap (chunksCharsGo (step + overlap) step t) = t := by
  rw [chunksCharsGo]
  have hlen : t.length ≠ 0 := by simpa using ht
  rw [if_neg hlen]
  by_cases hsmall : t.length ≤ step + overlap
  · rw [if_pos hsmall]
    simp [trimJoin, List.take_of_length_le hsmall]
  · rw [if_neg hsmall, if_neg (by omega : ¬ step = 0)]
    rw [trimJoin]
    rw [chunksCharsGo_trim_tail step overlap hstep (t.drop step)]
    rw [List.drop_drop]
    exact List.take_append_drop (step + overlap) t

theorem chunksCharsGo_windows (step overlap : Nat) (hstep : 0 < step)
    (t : List Char) :
    chunksCharsGo (step + overlap) step t
      = (List.range (chunksCharsGo (step + overlap) step t).length).map
          (fun i => (t.drop (i * step)).take (step + overlap)) := by
  rw [chunksCharsGo]
  by_cases hnil : t.length = 0
  · rw [if_pos hnil]
    simp
  · rw [if_neg hnil]
    by_cases hsmall : t.length ≤ step + overlap
    · rw [if_pos hsmall]
      simp [List.range_succ]
    · rw [if_neg hsmall, if_neg (by omega : ¬ step = 0)]
      have ih := chunksCharsGo_windows step overlap hstep (t.drop step)
      simp only [List.length_cons]
      rw [List.range_succ_eq_map, List.map_cons, Nat.zero_mul, List.drop_zero]
      congr 1
      conv_lhs => rw [ih]
      rw [List.map_map]
      refine List.map_congr_left fun i hi => ?_
      simp only [Function.comp_apply, List.drop_drop]
      have harg : step + i * step = Nat.succ i * step := by
        rw [Nat.succ_mul]
        omega
      rw [harg]
termination_by t.length
decreasing_by simp only [List.length_drop]; omega

/-- C2: for `0 < overlap < size`, character chunking succeeds; the chunks are
the contiguous windows `text[i*step : i*step + size]` (stride
`step = size - overlap`), their count is
`max 1 (ceil((n - overlap) / step))` for nonempty text (the `max 1` being the
adjustment for the final partial window) and `0` for empty text, and
concatenating the chunks with `overlap` characters trimmed from the front of
each chunk after the first reconstructs the text exactly (hence the windows
cover the whole text). -/
theorem chunks_chars_mem_spec (text : List Char) (size overlap : Int)
    (h1 : 0 < overlap) (h2 : overlap < size) :
    ∃ out, chunks_chars_mem text size overlap = .ok out ∧
      out = (List.range out.length).map
        (fun i => (text.drop (i * (size - overlap).toNat)).take size.toNat) ∧
      (text = [] → out = []) ∧
      (text ≠ [] → out.length
        = max 1 ((text.length - overlap.toNat + (size - overlap).toNat - 1)
                  / (size - overlap).toNat)) ∧
      (text ≠ [] → trimJoin overlap.toNat out = text) := by
  have hval : validate_chunker size overlap = .ok () := by
    unfold validate_chunker
    rw [if_neg (by omega), if_neg (by omega), if_neg (by omega)]
  have hsz : size.toNat = (size - overlap).toNat + overlap.toNat := by omega
  have hstep : 0 < (size - overlap).toNat := by omega
  refine ⟨chunksCharsGo size.toNat (size - overlap).toNat text, ?_, ?_, ?_, ?_, ?_⟩
  · unfold chunks_chars_mem
    rw [hval]
    rfl
  · conv_lhs => rw [hsz, chunksCharsGo_windows _ _ hstep]
    rw [hsz]
  · intro h
    subst h
    rw [chunksCharsGo]
    simp
  · intro ht
    rw [hsz]
    exact chunksCharsGo_length _ _ hstep text ht
  · intro ht
    rw [hsz]
    exact chunksCharsGo_trimJoin _ _ hstep text ht

/-- Witness for C2 at `text = "abcdefgh"`, `size = 4`, `overlap = 1`. -/
theorem chunks_chars_mem_spec_witness :
    (0 : Int) < 1 ∧ (1 : Int) < 4 ∧
      ∃ out, chunks_chars_mem "abcdefgh".toList 4 1 = .ok out ∧
        out = (List.range out.length).map
          (fun i => ("abcdefgh".toList.drop (i * ((4 : Int) - 1).toNat)).take (4 : Int).toNat) ∧
        ("abcdefgh".toList = [] → out = []) ∧
        ("abcdefgh".toList ≠ [] → out.length
          = max 1 (("abcdefgh".toList.length - (1 : Int).toNat + ((4 : Int) - 1).toNat - 1)
                    / ((4 : Int) - 1).toNat)) ∧
        ("abcdefgh".toList ≠ [] → trimJoin (1 : Int).toNat out = "abcdefgh".toList) :=
  ⟨by decide, by decide, chunks_chars_mem_spec "abcdefgh".toList 4 1 (by decide) (by decide)⟩

/-- C6 counterexample: the claim says chunking must fail whenever
`overlap ≤ 0`, but `validate_chunker` accepts `size = 5, overlap = 0` (it only
rejects `overlap < 0`), so `chunks_chars_mem` succeeds there. -/
theorem except_ok_bind {ε α β : Type} (a : α) (f : α → Except ε β) :
    (Except.ok a >>= f) = f a := rfl

theorem except_err_bind {ε α β : Type} (e : ε) (f : α → Except ε β) :
    ((Except.error e : Except ε α) >>= f) = .error e := rfl

theorem chunking_validation_counterexample :
    chunks_chars_mem "ab".toList 5 0 = .ok ["ab".toList] ∧ (0 : Int) ≤ 0 := by
  have hv : validate_chunker 5 0 = .ok () := by
    unfold validate_chunker
    rw [if_neg (by decide), if_neg (by decide), if_neg (by decide)]
  have hg : chunksCharsGo (5 : Int).toNat ((5 : Int) - 0).toNat "ab".toList = ["ab".toList] := by
    rw [chunksCharsGo]
    rw [if_neg (by decide), if_pos (by decide)]
    rw [List.take_of_length_le (by decide)]
  refine ⟨?_, by decide⟩
  unfold chunks_chars_mem
  rw [hv, except_ok_bind, hg]
  rfl

/-- C6 amended: chunking fails (with the parameter `ValueError`) if and only
if `size ≤ 0`, `overlap < 0`, or `overlap ≥ size`; in particular
`overlap = 0` with positive `size` is accepted, and every pair with
`0 < overlap < size` is accepted. -/
theorem chunks_chars_mem_error_iff (text : List Char) (size overlap : Int) :
    (∃ e, chunks_chars_mem text size overlap = .error e)
      ↔ (size ≤ 0 ∨ overlap < 0 ∨ overlap ≥ size) := by
  unfold chunks_chars_mem validate_chunker
  split_ifs with hs ho hos
  · rw [except_err_bind]
    exact ⟨fun _ => Or.inl hs, fun _ => ⟨_, rfl⟩⟩
  · rw [except_err_bind]
    exact ⟨fun _ => by omega, fun _ => ⟨_, rfl⟩⟩
  · rw [except_err_bind]
    exact ⟨fun _ => by omega, fun _ => ⟨_, rfl⟩⟩
  · rw [except_ok_bind]
    constructor
    · rintro ⟨e, he⟩
      cases he
    · intro h
      omega

/-- C4: the ranked cluster list is ordered by `(severity descending,
frequency descending)` — every pair of adjacent output clusters satisfies the
descending lexicographic relation, the output is a permutation of the input —
and on the concrete instance with severities `[5, 2, 2]` and frequencies
`[1, 10, 3]` the single severity-5 cluster of frequency 1 outranks both
severity-2 clusters, which are ordered by frequency `10` before `3`. -/
theorem rankClusters_spec :
    (∀ cs : List Cluster,
        (rankClusters cs).Sorted clusterRel ∧ List.Perm (rankClusters cs) cs) ∧
      (rankClusters exampleClusters).map (fun c => (c.severity, c.freq))
        = [(5, 1), (2, 10), (2, 3)] := by
  refine ⟨fun cs => ⟨List.sorted_insertionSort clusterRel cs,
    List.perm_insertionSort clusterRel cs⟩, ?_⟩
  decide

/-- C5: with the configured index type `"IVFFlat"` (`Config.FAISS_INDEX_TYPE`),
building from `n` vectors selects: `n < 1000` the exact flat topology;
`1000 ≤ n < 10000` the clustered topology with `nlist = min(100, n/10)` and
`nprobe = min(10, nlist)`; `n ≥ 10000` `nlist = min(1000, n/50)` and
`nprobe = min(20, nlist)`.  In particular `n = 999` gives `"Flat"`,
`n = 1000` gives `nlist = 100`, and `n = 50000` gives `nlist = 1000`. -/
theorem create_faiss_index_topology (vectors : List (List ℚ)) (metadata : List μ)
    (hlen : vectors.length = metadata.length) :
    ∃ st, create_faiss_index_from_vectors vectors metadata "IVFFlat" = .ok st ∧
      (vectors.length < 1000 → st.index_type = "Flat") ∧
      (1000 ≤ vectors.length → vectors.length < 10000 →
        st.index_type = "IVFFlat" ∧ st.nlist = min 100 (vectors.length / 10) ∧
          st.nprobe = min 10 st.nlist) ∧
      (10000 ≤ vectors.length →
        st.index_type = "IVFFlat" ∧ st.nlist = min 1000 (vectors.length / 50) ∧
          st.nprobe = min 20 st.nlist) ∧
      (vectors.length = 999 → st.index_type = "Flat") ∧
      (vectors.length = 1000 → st.nlist = 100) ∧
      (vectors.length = 50000 → st.nlist = 1000) := by
  unfold create_faiss_index_from_vectors
  by_cases h1 : vectors.length < 1000
  · rw [if_pos h1]
    unfold FAISSIndex.build FAISSIndex.mk_init
    rw [if_neg (by omega), if_neg (by simp)]
    exact ⟨_, rfl, fun _ => rfl, fun ha _ => absurd ha (by omega),
      fun ha => absurd ha (by omega), fun _ => rfl,
      fun ha => absurd h1 (by omega), fun ha => absurd h1 (by omega)⟩
  · rw [if_neg h1]
    by_cases h2 : vectors.length < 10000
    · rw [if_pos h2]
      unfold FAISSIndex.build FAISSIndex.mk_init
      rw [if_neg (by omega), if_neg (by simp)]
      refine ⟨_, rfl, fun ha => absurd ha (by omega), fun _ _ => ⟨rfl, rfl, rfl⟩,
        fun ha => absurd h2 (by omega), fun ha => absurd h1 (by omega),
        fun ha => ?_, fun ha => absurd h2 (by omega)⟩
      show min 100 (vectors.length / 10) = 100
      have hd : vectors.length / 10 = 100 := by omega
      rw [hd]
      exact Nat.min_self 100
    · rw [if_neg h2]
      unfold FAISSIndex.build FAISSIndex.mk_init
      rw [if_neg (by omega), if_neg (by simp)]
      refine ⟨_, rfl, fun ha => absurd ha (by omega),
        fun _ hb => absurd h2 (by omega), fun _ => ⟨rfl, rfl, rfl⟩,
        fun ha => absurd h1 (by omega), fun ha => absurd h2 (by omega),
        fun ha => ?_⟩
      show min 1000 (vectors.length / 50) = 1000
      have hd : vectors.length / 50 = 1000 := by omega
      rw [hd]
      exact Nat.min_self 1000

/-- Witness for C5 on a small corpus (`n = 2 < 1000` selects the flat
topology). -/
theorem create_faiss_index_topology_witness :
    exVectors.length = exMetadata.length ∧
      ∃ st, create_faiss_index_from_vectors exVectors exMetadata "IVFFlat" = .ok st ∧
        (exVectors.length < 1000 → st.index_type = "Flat") ∧
        (1000 ≤ exVectors.length → exVectors.length < 10000 →
          st.index_type = "IVFFlat" ∧ st.nlist = min 100 (exVectors.length / 10) ∧
            st.nprobe = min 10 st.nlist) ∧
        (10000 ≤ exVectors.length →
          st.index_type = "IVFFlat" ∧ st.nlist = min 1000 (exVectors.length / 50) ∧
            st.nprobe = min 20 st.nlist) ∧
        (exVectors.length = 999 → st.index_type = "Flat") ∧
        (exVectors.length = 1000 → st.nlist = 100) ∧
        (exVectors.length = 50000 → st.nlist = 1000) :=
  ⟨rfl, create_faiss_index_topology exVectors exMetadata rfl⟩

/-- C7 counterexample: searching a freshly-initialized (never built, never
trained) index does not fail with `IndexNotTrained` — lines 142-144 of
`faiss_utils.py` return the empty result `([], None)` instead. -/
theorem faiss_search_unbuilt_counterexample :
    FAISSIndex.search (FAISSIndex.mk_init Nat 4 "IVFFlat" 100 10)
      (fun _ _ _ => []) (fun d => d) [1, 0, 0, 0] 5 = ([], none) := rfl

/-- C7 amended: searching an index that has never been built returns the
empty result `([], None)` without raising any error (the code logs a warning
and returns early; no `IndexNotTrained` failure exists on this path). -/
theorem faiss_search_unbuilt {μ : Type} (st : FAISSIndexState μ)
    (faissSearch : List (List ℚ) → List ℚ → Nat → List (Int × ℚ))
    (expNeg : ℚ → ℚ) (q : List ℚ) (k : Nat) (h : st.index = none) :
    FAISSIndex.search st faissSearch expNeg q k = ([], none) := by
  unfold FAISSIndex.search
  rw [h]

/-- Witness for C7 (amended) on a second fresh index. -/
theorem faiss_search_unbuilt_witness :
    (FAISSIndex.mk_init String 8 "Flat" 100 10).index = none ∧
      FAISSIndex.search (FAISSIndex.mk_init String 8 "Flat" 100 10)
        (fun _ _ _ => [(0, 1)]) (fun d => -d) [1] 3 = ([], none) :=
  ⟨rfl, faiss_search_unbuilt _ _ _ _ _ rfl⟩

theorem faiss_search_built {μ : Type} (st : FAISSIndexState μ)
    (vecs : List (List ℚ))
    (f : List (List ℚ) → List ℚ → Nat → List (Int × ℚ))
    (e : ℚ → ℚ) (q : List ℚ) (k : Nat)
    (hix : st.index = some vecs) (hne : vecs ≠ []) :
    FAISSIndex.search st f e q k
      = ((f vecs q (min k vecs.length)).filterMap (fun p =>
           if h : 0 ≤ p.1 ∧ p.1.toNat < st.metadata.length then
             some ⟨st.metadata.get ⟨p.1.toNat, h.2⟩, p.2, e p.2⟩
           else none),
         some ((f vecs q (min k vecs.length)).map Prod.snd)) := by
  have hz : ¬ vecs.length = 0 := by simp [List.length_eq_zero, hne]
  simp [FAISSIndex.search, hix, hz]

/-- C9: searching a built index holding `m = vecs.length` vectors silently
clamps `k` to `m` (the search with `k` equals the search with `min k m`),
returns at most `min k m ≤ m` results, and every returned hit carries a
metadata row of the stored metadata list — never a row outside the stored
range.  The raw library output `f` is arbitrary subject to the FAISS shape
contract that it yields at most the requested number of neighbours. -/
theorem faiss_search_clamps {μ : Type} (st : FAISSIndexState μ)
    (vecs : List (List ℚ))
    (f : List (List ℚ) → List ℚ → Nat → List (Int × ℚ))
    (e : ℚ → ℚ) (q : List ℚ) (k : Nat)
    (hix : st.index = some vecs) (hne : vecs ≠ [])
    (hlen : (f vecs q (min k vecs.length)).length ≤ min k vecs.length) :
    (FAISSIndex.search st f e q k).1.length ≤ min k vecs.length ∧
      FAISSIndex.search st f e q k = FAISSIndex.search st f e q (min k vecs.length) ∧
      ∀ hit ∈ (FAISSIndex.search st f e q k).1, hit.meta ∈ st.metadata := by
  have hmm : min (min k vecs.length) vecs.length = min k vecs.length := by omega
  rw [faiss_search_built st vecs f e q k hix hne,
      faiss_search_built st vecs f e q (min k vecs.length) hix hne, hmm]
  refine ⟨le_trans (List.length_filterMap_le _ _) hlen, rfl, ?_⟩
  intro hit hm
  rcases List.mem_filterMap.mp hm with ⟨p, hp, hpe⟩
  by_cases hc : 0 ≤ p.1 ∧ p.1.toNat < st.metadata.length
  · rw [dif_pos hc] at hpe
    cases hpe
    exact List.get_mem st.metadata _ hc.2
  · rw [dif_neg hc] at hpe
    cases hpe

/-- Witness for C9 with `k = 5` requested from an index holding 2 vectors. -/
theorem faiss_search_clamps_witness :
    exBuiltIndex.index = some [[1, 0], [0, 1]] ∧
      ([[1, 0], [0, 1]] : List (List ℚ)) ≠ [] ∧
      (exFaissSearch [[1, 0], [0, 1]] [1, 0]
          (min 5 ([[1, 0], [0, 1]] : List (List ℚ)).length)).length
        ≤ min 5 ([[1, 0], [0, 1]] : List (List ℚ)).length ∧
      ((FAISSIndex.search exBuiltIndex exFaissSearch (fun d => -d) [1, 0] 5).1.length
          ≤ min 5 ([[1, 0], [0, 1]] : List (List ℚ)).length ∧
        FAISSIndex.search exBuiltIndex exFaissSearch (fun d => -d) [1, 0] 5
          = FAISSIndex.search exBuiltIndex exFaissSearch (fun d => -d) [1, 0]
              (min 5 ([[1, 0], [0, 1]] : List (List ℚ)).length) ∧
        ∀ hit ∈ (FAISSIndex.search exBuiltIndex exFaissSearch (fun d => -d) [1, 0] 5).1,
          hit.meta ∈ exBuiltIndex.metadata) :=
  ⟨rfl, by simp, by simp [exFaissSearch],
    faiss_search_clamps exBuiltIndex [[1, 0], [0, 1]] exFaissSearch (fun d => -d)
      [1, 0] 5 rfl (by simp) (by simp [exFaissSearch])⟩

/-- C10: calling the vectorize operation with `use_cache = true` and
`clear_cache = true` fails with `AttributeError` on `clear` (the
`EmbeddingCache` class defines no such method) before any chunk is embedded,
for every starting disk state and every possible continuation of the
operation; the persisted cache files are left unchanged. -/
theorem store_chunks_clear_cache_attribute_error (ρ : Type) (disk : CacheDisk)
    (rest : Option (List (String × List ℚ)) → CacheDisk → StoreOutcome ρ) :
    store_chunks_as_vectors ρ true true disk rest
      = { result := .error (.attributeError "clear")
          disk := disk
          embeddedChunks := 0 } := by
  unfold store_chunks_as_vectors callCacheMethod
  simp [embeddingCacheMethods]

theorem length_dropWhile_le_self (p : Char → Bool) (l : List Char) :
    (l.dropWhile p).length ≤ l.length := by
  induction l with
  | nil => simp
  | cons c t ih =>
    rw [List.dropWhile_cons]
    split_ifs
    · exact le_trans ih (Nat.le_succ _)
    · exact le_refl _

theorem runsByF_fuel (p : Char → Bool) :
    ∀ (fuel : Nat) (l : List Char), l.length ≤ fuel →
      runsByF p fuel l = runsBy p l := by
  intro fuel
  induction fuel using Nat.strong_induction_on with
  | _ fuel ih =>
    intro l hl
    match fuel, l with
    | 0, l =>
      have : l = [] := by
        cases l with
        | nil => rfl
        | cons c t => simp at hl
      subst this
      rfl
    | fuel + 1, [] => rfl
    | fuel + 1, c :: t =>
      simp only [List.length_cons] at hl
      rw [runsByF, runsBy]
      simp only [List.length_cons]
      rw [runsByF]
      by_cases hp : p c
      · rw [if_pos hp, if_pos hp]
        have hd := length_dropWhile_le_self p t
        rw [ih fuel (by omega) (t.dropWhile p) (by omega),
            ih t.length (by omega) (t.dropWhile p) (by omega)]
      · rw [if_neg hp, if_neg hp]
        rw [ih fuel (by omega) t (by omega), ih t.length (by omega) t (by omega)]

/-- The recursion equation of `runsBy` (what the run scanner does on a
nonempty list). -/
theorem runsBy_cons (p : Char → Bool) (c : Char) (t : List Char) :
    runsBy p (c :: t)
      = if p c then (c :: t.takeWhile p) :: runsBy p (t.dropWhile p)
        else runsBy p t := by
  rw [runsBy]
  simp only [List.length_cons]
  rw [runsByF]
  by_cases hp : p c
  · rw [if_pos hp, if_pos hp,
      runsByF_fuel p t.length (t.dropWhile p) (length_dropWhile_le_self p t)]
  · rw [if_neg hp, if_neg hp, runsByF_fuel p t.length t (le_refl _)]

/-- C1 counterexample: on the index path, with exactly one pre-filter
candidate (so `candidates ≤ 10`) that scores below the threshold, the claim
demands the threshold-filtered set (which is empty) to be returned
unchanged; the code instead fires the relaxation and returns the candidate
(the index path never checks the `> 10 candidates` condition). -/
theorem underflow_relaxation_counterexample :
    [exRowC1].length ≤ 10 ∧
      (indexThresholdFiltered exQueryC1 [exRowC1]).length < 10 ∧
      indexPathRetrieve exQueryC1 [exRowC1]
        ≠ indexThresholdFiltered exQueryC1 [exRowC1] ∧
      indexPathRetrieve exQueryC1 [exRowC1] ≠ [] := by
  have hintent : summaryIntent exQueryC1 = false := by decide
  have hlex : lexOf exQueryC1 "completely unrelated".toList = 0 := by
    unfold lexOf
    have h1 : ((wordSet exQueryC1).filter
        (fun w => w ∈ wordSet "completely unrelated".toList)).length = 0 := by decide
    rw [h1]
    norm_num
  have hfilters : indexThresholdFiltered exQueryC1 [exRowC1] = [] := by
    unfold indexThresholdFiltered indexScored scoreThreshold exRowC1
    simp only [hintent, if_false, Bool.false_eq_true, List.map_cons, List.map_nil,
      hlex]
    rw [List.filter_cons]
    rw [decide_eq_false (by norm_num : ¬ ((0.20 : ℚ) ≤ 0.7 * (1 / 20) + 0.2 * 0))]
    simp
  have hpath : indexPathRetrieve exQueryC1 [exRowC1]
      = [⟨1 / 20, "p.txt", "completely unrelated".toList, 1 / 20, 0⟩] := by
    unfold indexPathRetrieve
    rw [if_pos (by rw [hfilters]; simp)]
    rfl
  refine ⟨by simp, by rw [hfilters]; simp, ?_, ?_⟩
  · rw [hpath, hfilters]
    simp
  · rw [hpath]
    simp

/-- C1 amended: the underflow relaxation triggers as follows.  On the index
path, whenever fewer than 10 items survive the threshold (with *no*
condition on the pre-filter candidate count), the first `min(50, candidates)`
raw results are returned with score = raw similarity and lexical annotated
as 0.0; with 10 or more survivors the filtered set is returned unchanged.
On the brute-force fallback path the relaxation additionally requires more
than 10 pre-filter candidates, and returns the top `min(50, candidates)`
items of the score-sorted candidate list; the sorted list is a permutation
of the candidates in descending score order. -/
theorem underflow_relaxation_spec :
    (∀ (query : List Char) (results : List FaissResultRow),
      (10 ≤ (indexThresholdFiltered query results).length →
        indexPathRetrieve query results = indexThresholdFiltered query results) ∧
      ((indexThresholdFiltered query results).length < 10 →
        indexPathRetrieve query results
          = (results.take (min 50 results.length)).map (fun r =>
              { score := r.similarity
                path := r.path
                chunk := r.text
                semantic := r.similarity
                lexical := 0 }))) ∧
    (∀ (query : List Char) (scored : List Retrieved),
      ((10 ≤ (fallbackFiltered query scored).length ∨ scored.length ≤ 10) →
        fallbackSelect query scored = fallbackFiltered query scored) ∧
      ((fallbackFiltered query scored).length < 10 ∧ 10 < scored.length →
        fallbackSelect query scored
          = (sortByScore scored).take (min 50 scored.length))) ∧
    (∀ scored : List Retrieved,
      (sortByScore scored).Sorted scoreGE ∧ List.Perm (sortByScore scored) scored) := by
  refine ⟨fun query results => ⟨?_, ?_⟩, fun query scored => ⟨?_, ?_⟩,
    fun scored => ⟨List.sorted_insertionSort scoreGE scored,
      List.perm_insertionSort scoreGE scored⟩⟩
  · intro h
    unfold indexPathRetrieve
    rw [if_neg (by omega)]
  · intro h
    unfold indexPathRetrieve
    rw [if_pos h]
  · intro h
    unfold fallbackSelect
    rw [if_neg (by omega)]
  · intro h
    unfold fallbackSelect
    rw [if_pos h]

/-- Witness for C1 (amended): one surviving item still triggers the
index-path relaxation, and an empty fallback candidate list keeps the
filtered set. -/
theorem underflow_relaxation_spec_witness :
    ((indexThresholdFiltered exQueryC1 [exRowC1b]).length < 10 ∧
      indexPathRetrieve exQueryC1 [exRowC1b]
        = ([exRowC1b].take (min 50 [exRowC1b].length)).map (fun r =>
            { score := r.similarity
              path := r.path
              chunk := r.text
              semantic := r.similarity
              lexical := 0 })) ∧
    (([] : List Retrieved).length ≤ 10 ∧
      fallbackSelect exQueryC1 [] = fallbackFiltered exQueryC1 []) := by
  have hb : (indexThresholdFiltered exQueryC1 [exRowC1b]).length < 10 := by
    have hle : (indexThresholdFiltered exQueryC1 [exRowC1b]).length
        ≤ (indexScored exQueryC1 [exRowC1b]).length :=
      List.length_filter_le _ _
    have h1 : (indexScored exQueryC1 [exRowC1b]).length = 1 := by
      simp [indexScored]
    omega
  exact ⟨⟨hb, (underflow_relaxation_spec.1 exQueryC1 [exRowC1b]).2 hb⟩,
    ⟨by simp, (underflow_relaxation_spec.2.1 exQueryC1 []).1 (Or.inr (by simp))⟩⟩

/-- C8 counterexample: the query `"foo-bar"` against the chunk
`"the bar jumped"`.  The code's `\w+` tokenization splits `foo-bar` into
`{foo, bar}` and yields lexical overlap `1/2`; the claim's
whitespace-tokenized word set is `{foo-bar}` and yields `0`.  The third
conjunct shows the fallback scorer really assigns the `\w+`-based value. -/
theorem hybrid_lexical_counterexample :
    lexOf "foo-bar".toList "the bar jumped".toList = 1 / 2 ∧
      lexOfWhitespaceSpec "foo-bar".toList "the bar jumped".toList = 0 ∧
      lexOf "foo-bar".toList "the bar jumped".toList
        ≠ lexOfWhitespaceSpec "foo-bar".toList "the bar jumped".toList ∧
      (fallbackScores (fun _ _ => 0) "foo-bar".toList [1]
          [⟨"p", "the bar jumped".toList, [1]⟩]).map (fun r => r.lexical)
        = [1 / 2] := by
  have hlex : lexOf "foo-bar".toList "the bar jumped".toList = 1 / 2 := by
    unfold lexOf
    have h1 : ((wordSet "foo-bar".toList).filter
        (fun w => w ∈ wordSet "the bar jumped".toList)).length = 1 := by decide
    have h2 : (wordSet "foo-bar".toList).length = 2 := by decide
    rw [h1, h2]
    norm_num
  have hws : lexOfWhitespaceSpec "foo-bar".toList "the bar jumped".toList = 0 := by
    unfold lexOfWhitespaceSpec
    have h1 : (((runsBy (fun c => !c.isWhitespace)
          ("foo-bar".toList.map Char.toLower)).dedup).filter
        (fun w => w ∈ (runsBy (fun c => !c.isWhitespace)
          ("the bar jumped".toList.map Char.toLower)).dedup)).length = 0 := by decide
    simp only []
    rw [h1]
    norm_num
  refine ⟨hlex, hws, by rw [hlex, hws]; norm_num, ?_⟩
  simp only [fallbackScores, List.filter_cons, List.isEmpty_cons, Bool.not_false,
    List.filter_nil, List.map_cons, List.map_nil, if_true]
  rw [hlex]

/-- C8 amended: on the brute-force fallback path, every scored item comes
from a stored entry with a nonempty vector; its `semantic` is the external
cosine-similarity capability applied to the query vector and the entry's
vector, its `lexical` is `|q_words ∩ chunk_words| / max(|q_words|, 1)` over
`\w+`-tokenized (regex word characters, not whitespace) lowercase word sets,
and its score is `0.6*semantic + 0.25*lexical` under summary/all-errors
intent and `0.7*semantic + 0.2*lexical` otherwise. -/
theorem hybrid_score_fallback (semF : List ℚ → List ℚ → ℚ) (query : List Char)
    (qVec : List ℚ) (data : List VecEntry) :
    (fallbackScores semF query qVec data).length
        = (data.filter (fun e => !e.vector.isEmpty)).length ∧
      ∀ r ∈ fallbackScores semF query qVec data,
        ∃ e ∈ data, e.vector ≠ [] ∧
          r.semantic = semF qVec e.vector ∧
          r.lexical = (((wordSet query).filter (fun w => w ∈ wordSet e.text)).length : ℚ)
              / (max (wordSet query).length 1 : ℚ) ∧
          r.score = (if summaryIntent query then 0.6 * r.semantic + 0.25 * r.lexical
                     else 0.7 * r.semantic + 0.2 * r.lexical) ∧
          r.path = e.path ∧ r.chunk = e.text := by
  constructor
  · simp [fallbackScores]
  · intro r hr
    rcases List.mem_map.mp hr with ⟨e, he, heq⟩
    rcases List.mem_filter.mp he with ⟨hed, hev⟩
    subst heq
    refine ⟨e, hed, ?_, rfl, rfl, rfl, rfl, rfl⟩
    simpa using hev

/-- Witness for C8 (amended) at a concrete entry: the scorer emits one item
and it satisfies the amended characterization. -/
theorem hybrid_score_fallback_witness :
    (fallbackScores (fun _ _ => 1 / 4) exQueryC1 [1, 0] [exEntryC8]).length
        = ([exEntryC8].filter (fun e => !e.vector.isEmpty)).length ∧
      ∀ r ∈ fallbackScores (fun _ _ => 1 / 4) exQueryC1 [1, 0] [exEntryC8],
        ∃ e ∈ [exEntryC8], e.vector ≠ [] ∧
          r.semantic = (fun (_ _ : List ℚ) => (1 / 4 : ℚ)) [1, 0] e.vector ∧
          r.lexical = (((wordSet exQueryC1).filter
              (fun w => w ∈ wordSet e.text)).length : ℚ)
              / (max (wordSet exQueryC1).length 1 : ℚ) ∧
          r.score = (if summaryIntent exQueryC1
                     then 0.6 * r.semantic + 0.25 * r.lexical
                     else 0.7 * r.semantic + 0.2 * r.lexical) ∧
          r.path = e.path ∧ r.chunk = e.text :=
  hybrid_score_fallback (fun _ _ => 1 / 4) exQueryC1 [1, 0] [exEntryC8]

set_option maxRecDepth 100000 in
/-- C3 counterexample: the two blocks differ only in an embedded 8-character
hexadecimal identifier (both normalize to `x.<hex>.fooexception`), yet their
fingerprints differ, because the error type is extracted from the *raw*
head line (`x.11111111.FooException` vs `x.22222222.FooException`) and fed
un-normalized into the fingerprint hash. -/
theorem fingerprint_stability_counterexample :
    blocksDiffOnlyIds exBlockC3a exBlockC3b = true ∧
      normalize_text_for_fingerprint ("x.11111111.FooException".toList) 220
        = normalize_text_for_fingerprint ("x.22222222.FooException".toList) 220 ∧
      (eventOfBlock "GenericError".toList none exBlockC3a).error_type
        ≠ (eventOfBlock "GenericError".toList none exBlockC3b).error_type ∧
      (eventOfBlock "GenericError".toList none exBlockC3a).fingerprint
        ≠ (eventOfBlock "GenericError".toList none exBlockC3b).fingerprint := by
  decide

/-! ## Infrastructure for the fingerprint-stability proof -/

theorem hex_isWordChar (c : Char) (h : isHexChar c = true) : isWordChar c = true := by
  simp only [isHexChar, Char.isDigit, Bool.or_eq_true, Bool.and_eq_true,
    decide_eq_true_eq, UInt32.le_def, BitVec.le_def] at h
  simp only [isWordChar, Char.isAlpha, Char.isUpper, Char.isLower, Char.isDigit,
    Bool.or_eq_true, Bool.and_eq_true, decide_eq_true_eq, UInt32.le_def, BitVec.le_def]
  left
  have e48 : ((48 : UInt32).toBitVec).toNat = 48 := rfl
  have e57 : ((57 : UInt32).toBitVec).toNat = 57 := rfl
  have e65 : ((65 : UInt32).toBitVec).toNat = 65 := rfl
  have e70 : ((70 : UInt32).toBitVec).toNat = 70 := rfl
  have e90 : ((90 : UInt32).toBitVec).toNat = 90 := rfl
  have e97 : ((97 : UInt32).toBitVec).toNat = 97 := rfl
  have e102 : ((102 : UInt32).toBitVec).toNat = 102 := rfl
  have e122 : ((122 : UInt32).toBitVec).toNat = 122 := rfl
  rw [e48, e57, e97, e102, e65, e70] at h
  rw [e65, e90, e97, e122, e48, e57]
  omega

theorem ws_not_word (c : Char) (h : c.isWhitespace = true) : isWordChar c = false := by
  simp only [Char.isWhitespace, Bool.or_eq_true, decide_eq_true_eq] at h
  rcases h with ((h | h) | h) | h <;> subst h <;> decide

theorem word_not_ws (c : Char) (h : isWordChar c = true) : c.isWhitespace = false := by
  cases hw : c.isWhitespace with
  | false => rfl
  | true => rw [ws_not_word c hw] at h; cases h

theorem dropWhile_head_false (p : Char → Bool) :
    ∀ (l : List Char) (c : Char) (t : List Char),
      l.dropWhile p = c :: t → p c = false := by
  intro l
  induction l with
  | nil => intro c t h; cases h
  | cons a l ih =>
    intro c t h
    rw [List.dropWhile_cons] at h
    by_cases hp : p a
    · rw [if_pos hp] at h
      exact ih c t h
    · rw [if_neg hp] at h
      cases h
      exact Bool.of_not_eq_true hp

theorem takeWhile_all (p : Char → Bool) (l : List Char) :
    (l.takeWhile p).all p = true := by
  rw [List.all_eq_true]
  intro a ha
  exact List.mem_takeWhile_imp ha

/-- A non-word-headed (or empty) tail after an all-word run: `takeWhile`
keeps exactly the run, `dropWhile` drops exactly it. -/
theorem takeWhile_append_run (p : Char → Bool) :
    ∀ (w r : List Char), w.all p = true →
      (r = [] ∨ ∃ d t, r = d :: t ∧ p d = false) →
      (w ++ r).takeWhile p = w ∧ (w ++ r).dropWhile p = r := by
  intro w
  induction w with
  | nil =>
    intro r _ hr
    constructor
    · rcases hr with h | ⟨d, t, h, hd⟩
      · subst h; rfl
      · subst h
        simp [List.takeWhile_cons, hd]
    · rcases hr with h | ⟨d, t, h, hd⟩
      · subst h; rfl
      · subst h
        simp [List.dropWhile_cons, hd]
  | cons a w ih =>
    intro r hall hr
    rw [List.all_cons, Bool.and_eq_true] at hall
    have := ih r hall.2 hr
    constructor
    · rw [List.cons_append, List.takeWhile_cons, if_pos hall.1, this.1]
    · rw [List.cons_append, List.dropWhile_cons, if_pos hall.1, this.2]

theorem uuidSplit_some_drop {l r : List Char} (h : uuidSplit l = some r) :
    r = l.drop 36 ∧ 36 ≤ l.length := by
  unfold uuidSplit at h
  by_cases hc : (uuidShape (l.take 36) && uuidBoundaryOK (l.drop 36)) = true
  · rw [if_pos hc] at h
    cases h
    refine ⟨rfl, ?_⟩
    rw [Bool.and_eq_true] at hc
    have := hc.1
    unfold uuidShape at this
    rw [Bool.and_eq_true] at this
    repeat rw [Bool.and_eq_true] at this
    have hlen : (l.take 36).length = 36 := by
      have := this.1.1.1.1.1.1.1.1.1.1.1
      simpa using this
    rw [List.length_take] at hlen
    omega
  · rw [if_neg hc] at h
    cases h

theorem uuidSplit_head_word {l : List Char} {r : List Char}
    (h : uuidSplit l = some r) :
    ∃ c t, l = c :: t ∧ isWordChar c = true := by
  unfold uuidSplit at h
  by_cases hc : (uuidShape (l.take 36) && uuidBoundaryOK (l.drop 36)) = true
  · rw [Bool.and_eq_true] at hc
    have hshape := hc.1
    unfold uuidShape at hshape
    repeat rw [Bool.and_eq_true] at hshape
    have hlen : (l.take 36).length = 36 := by
      have := hshape.1.1.1.1.1.1.1.1.1.1.1
      simpa using this
    have hhex : ((l.take 36).take 8).all isHexChar = true := hshape.1.1.1.1.1.1.1.1.1.1.2
    match l with
    | [] => simp at hlen
    | c :: t =>
      refine ⟨c, t, rfl, ?_⟩
      apply hex_isWordChar
      have hc8 : c ∈ ((c :: t).take 36).take 8 := by
        simp
      rw [List.all_eq_true] at hhex
      exact hhex c hc8
  · rw [if_neg hc] at h
    cases h

theorem collapseF_succ_cons (fuel : Nat) (c : Char) (t : List Char) :
    collapseF (fuel + 1) (c :: t) =
      if isWordChar c then
        match uuidSplit (c :: t) with
        | some rest => "<UUID>".toList ++ collapseF fuel rest
        | none =>
            substTok ((c :: t).takeWhile isWordChar)
              ++ collapseF fuel ((c :: t).dropWhile isWordChar)
      else c :: collapseF fuel t := rfl

theorem collapseF_fuel :
    ∀ (fuel : Nat) (l : List Char), l.length ≤ fuel →
      collapseF fuel l = collapseLine l := by
  intro fuel
  induction fuel using Nat.strong_induction_on with
  | _ fuel ih =>
    intro l hl
    match fuel, l with
    | 0, l =>
      have : l = [] := by
        cases l with
        | nil => rfl
        | cons c t => simp at hl
      subst this
      rfl
    | fuel + 1, [] => rfl
    | fuel + 1, c :: t =>
      simp only [List.length_cons] at hl
      rw [collapseLine]
      simp only [List.length_cons]
      rw [collapseF_succ_cons, collapseF_succ_cons]
      by_cases hw : isWordChar c
      · rw [if_pos hw, if_pos hw]
        cases hu : uuidSplit (c :: t) with
        | some rest =>
          have hd := uuidSplit_some_drop hu
          have hrest : rest.length ≤ t.length := by
            have : rest.length = (c :: t).length - 36 := by
              rw [hd.1, List.length_drop]
            simp only [List.length_cons] at this
            omega
          show "<UUID>".toList ++ collapseF fuel rest
              = "<UUID>".toList ++ collapseF t.length rest
          rw [ih fuel (by omega) rest (by omega),
              ih t.length (by omega) rest (by omega)]
        | none =>
          have hdw : ((c :: t).dropWhile isWordChar).length ≤ t.length := by
            rw [List.dropWhile_cons, if_pos hw]
            exact length_dropWhile_le_self _ t
          show substTok ((c :: t).takeWhile isWordChar)
                ++ collapseF fuel ((c :: t).dropWhile isWordChar)
              = substTok ((c :: t).takeWhile isWordChar)
                ++ collapseF t.length ((c :: t).dropWhile isWordChar)
          rw [ih fuel (by omega) _ (by omega), ih t.length (by omega) _ (by omega)]
      · rw [if_neg hw, if_neg hw]
        rw [ih fuel (by omega) t (by omega), ih t.length (by omega) t (by omega)]

theorem collapse_cons (c : Char) (t : List Char) :
    collapseLine (c :: t) =
      if isWordChar c then
        match uuidSplit (c :: t) with
        | some rest => "<UUID>".toList ++ collapseLine rest
        | none =>
            substTok ((c :: t).takeWhile isWordChar)
              ++ collapseLine ((c :: t).dropWhile isWordChar)
      else c :: collapseLine t := by
  rw [collapseLine]
  simp only [List.length_cons]
  rw [collapseF_succ_cons]
  by_cases hw : isWordChar c
  · rw [if_pos hw, if_pos hw]
    cases hu : uuidSplit (c :: t) with
    | some rest =>
      have hd := uuidSplit_some_drop hu
      have hrest : rest.length ≤ t.length := by
        have : rest.length = (c :: t).length - 36 := by
          rw [hd.1, List.length_drop]
        simp only [List.length_cons] at this
        omega
      show "<UUID>".toList ++ collapseF t.length rest
          = "<UUID>".toList ++ collapseLine rest
      rw [collapseF_fuel t.length rest (by omega)]
    | none =>
      have hdw : ((c :: t).dropWhile isWordChar).length ≤ t.length := by
        rw [List.dropWhile_cons, if_pos hw]
        exact length_dropWhile_le_self _ t
      show substTok ((c :: t).takeWhile isWordChar)
            ++ collapseF t.length ((c :: t).dropWhile isWordChar)
          = substTok ((c :: t).takeWhile isWordChar)
            ++ collapseLine ((c :: t).dropWhile isWordChar)
      rw [collapseF_fuel t.length _ (by omega)]
  · rw [if_neg hw, if_neg hw, collapseF_fuel t.length t (le_refl _)]

theorem collapse_sep {c : Char} (t : List Char) (h : isWordChar c = false) :
    collapseLine (c :: t) = c :: collapseLine t := by
  rw [collapse_cons, if_neg (by simp [h])]

theorem collapse_uuid {l r : List Char} (h : uuidSplit l = some r) :
    collapseLine l = "<UUID>".toList ++ collapseLine r := by
  obtain ⟨c, t, hl, hw⟩ := uuidSplit_head_word h
  subst hl
  rw [collapse_cons, if_pos hw, h]

theorem takeWhile_cons_ne_nil {c : Char} (t : List Char) (p : Char → Bool)
    (h : p c = true) : (c :: t).takeWhile p ≠ [] := by
  rw [List.takeWhile_cons, if_pos h]
  exact List.cons_ne_nil _ _

theorem collapse_token {w r : List Char} (hw : w ≠ [])
    (hall : w.all isWordChar = true)
    (hr : r = [] ∨ ∃ d t, r = d :: t ∧ isWordChar d = false)
    (hu : uuidSplit (w ++ r) = none) :
    collapseLine (w ++ r) = substTok w ++ collapseLine r := by
  have hdec := takeWhile_append_run isWordChar w r hall hr
  match w with
  | c :: w0 =>
    have hwc : isWordChar c = true := by
      rw [List.all_cons, Bool.and_eq_true] at hall
      exact hall.1
    rw [List.cons_append, collapse_cons, if_pos hwc, ← List.cons_append, hu,
      hdec.1, hdec.2]

theorem diffOnlyIdsF_succ_cons (fuel : Nat) (c1 : Char) (t1 : List Char)
    (c2 : Char) (t2 : List Char) :
    diffOnlyIdsF (fuel + 1) (c1 :: t1) (c2 :: t2) =
      if isWordChar c1 && isWordChar c2 then
        match uuidSplit (c1 :: t1), uuidSplit (c2 :: t2) with
        | some r1, some r2 => diffOnlyIdsF fuel r1 r2
        | none, none =>
          ((c1 :: t1).takeWhile isWordChar == (c2 :: t2).takeWhile isWordChar
            || ((wordClass ((c1 :: t1).takeWhile isWordChar)).isSome
                && wordClass ((c1 :: t1).takeWhile isWordChar)
                  == wordClass ((c2 :: t2).takeWhile isWordChar)))
            && diffOnlyIdsF fuel ((c1 :: t1).dropWhile isWordChar)
                ((c2 :: t2).dropWhile isWordChar)
        | _, _ => false
      else if !isWordChar c1 && !isWordChar c2 then
        c1 == c2 && diffOnlyIdsF fuel t1 t2
      else false := rfl

theorem diffOnlyIdsF_fuel :
    ∀ (fuel : Nat) (l1 l2 : List Char), l1.length ≤ fuel →
      diffOnlyIdsF fuel l1 l2 = diffOnlyIds l1 l2 := by
  intro fuel
  induction fuel using Nat.strong_induction_on with
  | _ fuel ih =>
    intro l1 l2 hl
    match fuel, l1, l2 with
    | fuel, [], [] => cases fuel <;> rfl
    | fuel, [], c2 :: t2 => cases fuel <;> rfl
    | fuel, c1 :: t1, [] => cases fuel <;> rfl
    | 0, c1 :: t1, c2 :: t2 => simp at hl
    | fuel + 1, c1 :: t1, c2 :: t2 =>
      simp only [List.length_cons] at hl
      rw [diffOnlyIds]
      simp only [List.length_cons]
      rw [diffOnlyIdsF_succ_cons, diffOnlyIdsF_succ_cons]
      by_cases hw : (isWordChar c1 && isWordChar c2) = true
      · rw [if_pos hw, if_pos hw]
        cases hu1 : uuidSplit (c1 :: t1) with
        | some r1 =>
          cases hu2 : uuidSplit (c2 :: t2) with
          | some r2 =>
            have hd := uuidSplit_some_drop hu1
            have hr1 : r1.length ≤ t1.length := by
              have : r1.length = (c1 :: t1).length - 36 := by
                rw [hd.1, List.length_drop]
              simp only [List.length_cons] at this
              omega
            show diffOnlyIdsF fuel r1 r2 = diffOnlyIdsF t1.length r1 r2
            rw [ih fuel (by omega) r1 r2 (by omega),
                ih t1.length (by omega) r1 r2 (by omega)]
          | none => rfl
        | none =>
          cases hu2 : uuidSplit (c2 :: t2) with
          | some r2 => rfl
          | none =>
            have hw1 : isWordChar c1 = true := by
              rw [Bool.and_eq_true] at hw
              exact hw.1
            have hdw : ((c1 :: t1).dropWhile isWordChar).length ≤ t1.length := by
              rw [List.dropWhile_cons, if_pos hw1]
              exact length_dropWhile_le_self _ t1
            show (((c1 :: t1).takeWhile isWordChar == (c2 :: t2).takeWhile isWordChar
                || ((wordClass ((c1 :: t1).takeWhile isWordChar)).isSome
                    && wordClass ((c1 :: t1).takeWhile isWordChar)
                      == wordClass ((c2 :: t2).takeWhile isWordChar)))
                && diffOnlyIdsF fuel ((c1 :: t1).dropWhile isWordChar)
                    ((c2 :: t2).dropWhile isWordChar))
              = (((c1 :: t1).takeWhile isWordChar == (c2 :: t2).takeWhile isWordChar
                || ((wordClass ((c1 :: t1).takeWhile isWordChar)).isSome
                    && wordClass ((c1 :: t1).takeWhile isWordChar)
                      == wordClass ((c2 :: t2).takeWhile isWordChar)))
                && diffOnlyIdsF t1.length ((c1 :: t1).dropWhile isWordChar)
                    ((c2 :: t2).dropWhile isWordChar))
            rw [ih fuel (by omega) _ _ (by omega),
                ih t1.length (by omega) _ _ (by omega)]
      · rw [if_neg hw, if_neg hw]
        by_cases hw' : (!isWordChar c1 && !isWordChar c2) = true
        · rw [if_pos hw', if_pos hw']
          show (c1 == c2 && diffOnlyIdsF fuel t1 t2)
              = (c1 == c2 && diffOnlyIdsF t1.length t1 t2)
          rw [ih fuel (by omega) t1 t2 (by omega),
              ih t1.length (by omega) t1 t2 (le_refl _)]
        · rw [if_neg hw', if_neg hw']

theorem diffOnlyIds_nil_cons (c2 : Char) (t2 : List Char) :
    diffOnlyIds [] (c2 :: t2) = false := rfl

theorem diffOnlyIds_cons_nil (c1 : Char) (t1 : List Char) :
    diffOnlyIds (c1 :: t1) [] = false := rfl

theorem diffOnlyIds_cons (c1 : Char) (t1 : List Char) (c2 : Char)
    (t2 : List Char) :
    diffOnlyIds (c1 :: t1) (c2 :: t2) =
      if isWordChar c1 && isWordChar c2 then
        match uuidSplit (c1 :: t1), uuidSplit (c2 :: t2) with
        | some r1, some r2 => diffOnlyIds r1 r2
        | none, none =>
          ((c1 :: t1).takeWhile isWordChar == (c2 :: t2).takeWhile isWordChar
            || ((wordClass ((c1 :: t1).takeWhile isWordChar)).isSome
                && wordClass ((c1 :: t1).takeWhile isWordChar)
                  == wordClass ((c2 :: t2).takeWhile isWordChar)))
            && diffOnlyIds ((c1 :: t1).dropWhile isWordChar)
                ((c2 :: t2).dropWhile isWordChar)
        | _, _ => false
      else if !isWordChar c1 && !isWordChar c2 then
        c1 == c2 && diffOnlyIds t1 t2
      else false := by
  rw [diffOnlyIds]
  simp only [List.length_cons]
  rw [diffOnlyIdsF_succ_cons]
  by_cases hw : (isWordChar c1 && isWordChar c2) = true
  · rw [if_pos hw, if_pos hw]
    cases hu1 : uuidSplit (c1 :: t1) with
    | some r1 =>
      cases hu2 : uuidSplit (c2 :: t2) with
      | some r2 =>
        have hd := uuidSplit_some_drop hu1
        have hr1 : r1.length ≤ t1.length := by
          have : r1.length = (c1 :: t1).length - 36 := by
            rw [hd.1, List.length_drop]
          simp only [List.length_cons] at this
          omega
        show diffOnlyIdsF t1.length r1 r2 = diffOnlyIds r1 r2
        rw [diffOnlyIdsF_fuel t1.length r1 r2 hr1]
      | none => rfl
    | none =>
      cases hu2 : uuidSplit (c2 :: t2) with
      | some r2 => rfl
      | none =>
        have hw1 : isWordChar c1 = true := by
          rw [Bool.and_eq_true] at hw
          exact hw.1
        have hdw : ((c1 :: t1).dropWhile isWordChar).length ≤ t1.length := by
          rw [List.dropWhile_cons, if_pos hw1]
          exact length_dropWhile_le_self _ t1
        show (((c1 :: t1).takeWhile isWordChar == (c2 :: t2).takeWhile isWordChar
            || ((wordClass ((c1 :: t1).takeWhile isWordChar)).isSome
                && wordClass ((c1 :: t1).takeWhile isWordChar)
                  == wordClass ((c2 :: t2).takeWhile isWordChar)))
            && diffOnlyIdsF t1.length ((c1 :: t1).dropWhile isWordChar)
                ((c2 :: t2).dropWhile isWordChar))
          = (((c1 :: t1).takeWhile isWordChar == (c2 :: t2).takeWhile isWordChar
            || ((wordClass ((c1 :: t1).takeWhile isWordChar)).isSome
                && wordClass ((c1 :: t1).takeWhile isWordChar)
                  == wordClass ((c2 :: t2).takeWhile isWordChar)))
            && diffOnlyIds ((c1 :: t1).dropWhile isWordChar)
                ((c2 :: t2).dropWhile isWordChar))
        rw [diffOnlyIdsF_fuel t1.length _ _ hdw]
  · rw [if_neg hw, if_neg hw]
    by_cases hw' : (!isWordChar c1 && !isWordChar c2) = true
    · rw [if_pos hw', if_pos hw']
      show (c1 == c2 && diffOnlyIdsF t1.length t1 t2)
          = (c1 == c2 && diffOnlyIds t1 t2)
      rw [diffOnlyIdsF_fuel t1.length t1 t2 (le_refl _)]
    · rw [if_neg hw', if_neg hw']

/-- `collapse_token` specialised to the takeWhile/dropWhile decomposition of a
word-headed line with no UUID match at its head. -/
theorem collapse_word_head {c : Char} {t : List Char}
    (hw : isWordChar c = true) (hu : uuidSplit (c :: t) = none) :
    collapseLine (c :: t) =
      substTok ((c :: t).takeWhile isWordChar)
        ++ collapseLine ((c :: t).dropWhile isWordChar) := by
  rw [collapse_cons, if_pos hw, hu]

/-- If two lines differ only in embedded identifiers, the substitution scan
maps them to the same string. -/
theorem diffOnlyIds_collapse_aux :
    ∀ (n : Nat) (l1 l2 : List Char), l1.length ≤ n → diffOnlyIds l1 l2 = true →
      collapseLine l1 = collapseLine l2 := by
  intro n
  induction n using Nat.strong_induction_on with
  | _ n ih =>
    intro l1 l2 hl h
    match l1, l2 with
    | [], [] => rfl
    | [], c2 :: t2 =>
      rw [diffOnlyIds_nil_cons] at h
      exact absurd h (by decide)
    | c1 :: t1, [] =>
      rw [diffOnlyIds_cons_nil] at h
      exact absurd h (by decide)
    | c1 :: t1, c2 :: t2 =>
      simp only [List.length_cons] at hl
      rw [diffOnlyIds_cons] at h
      by_cases hw1 : isWordChar c1 = true <;> by_cases hw2 : isWordChar c2 = true
      · rw [if_pos (by simp [hw1, hw2])] at h
        cases hu1 : uuidSplit (c1 :: t1) with
        | some r1 =>
          cases hu2 : uuidSplit (c2 :: t2) with
          | some r2 =>
            rw [hu1, hu2] at h
            have h' : diffOnlyIds r1 r2 = true := h
            have hd1 := uuidSplit_some_drop hu1
            have hr1 : r1.length ≤ t1.length := by
              have : r1.length = (c1 :: t1).length - 36 := by
                rw [hd1.1, List.length_drop]
              simp only [List.length_cons] at this
              omega
            rw [collapse_uuid hu1, collapse_uuid hu2]
            rw [ih t1.length (by omega) r1 r2 (by omega) h']
          | none =>
            rw [hu1, hu2] at h
            have h' : (false : Bool) = true := h
            exact absurd h' (by decide)
        | none =>
          cases hu2 : uuidSplit (c2 :: t2) with
          | some r2 =>
            rw [hu1, hu2] at h
            have h' : (false : Bool) = true := h
            exact absurd h' (by decide)
          | none =>
            rw [hu1, hu2] at h
            have h' : (((c1 :: t1).takeWhile isWordChar
                  == (c2 :: t2).takeWhile isWordChar
                || ((wordClass ((c1 :: t1).takeWhile isWordChar)).isSome
                    && wordClass ((c1 :: t1).takeWhile isWordChar)
                      == wordClass ((c2 :: t2).takeWhile isWordChar)))
                && diffOnlyIds ((c1 :: t1).dropWhile isWordChar)
                    ((c2 :: t2).dropWhile isWordChar)) = true := h
            rw [Bool.and_eq_true] at h'
            obtain ⟨hA, hrec⟩ := h'
            have hsub : substTok ((c1 :: t1).takeWhile isWordChar)
                = substTok ((c2 :: t2).takeWhile isWordChar) := by
              rw [Bool.or_eq_true] at hA
              cases hA with
              | inl hww => rw [eq_of_beq hww]
              | inr hcls =>
                rw [Bool.and_eq_true] at hcls
                obtain ⟨hsome, hcc⟩ := hcls
                cases hval : wordClass ((c1 :: t1).takeWhile isWordChar) with
                | none =>
                  rw [hval] at hsome
                  exact absurd hsome (by decide)
                | some v =>
                  unfold substTok
                  rw [← eq_of_beq hcc, hval]
                  rfl
            have hdw1 : ((c1 :: t1).dropWhile isWordChar).length ≤ t1.length := by
              rw [List.dropWhile_cons, if_pos hw1]
              exact length_dropWhile_le_self _ t1
            rw [collapse_word_head hw1 hu1, collapse_word_head hw2 hu2, hsub,
                ih t1.length (by omega) _ _ hdw1 hrec]
      · rw [if_neg (by simp [hw2]), if_neg (by simp [hw1])] at h
        exact absurd h (by decide)
      · rw [if_neg (by simp [hw1]), if_neg (by simp [hw2])] at h
        exact absurd h (by decide)
      · rw [if_neg (by simp [hw1]), if_pos (by simp [hw1, hw2])] at h
        rw [Bool.and_eq_true] at h
        obtain ⟨hc, hrec⟩ := h
        rw [collapse_sep t1 (Bool.of_not_eq_true hw1),
            collapse_sep t2 (Bool.of_not_eq_true hw2), eq_of_beq hc,
            ih t1.length (by omega) t1 t2 (le_refl _) hrec]

theorem diffOnlyIds_collapse {l1 l2 : List Char} (h : diffOnlyIds l1 l2 = true) :
    collapseLine l1 = collapseLine l2 :=
  diffOnlyIds_collapse_aux l1.length l1 l2 (le_refl _) h

theorem ws_not_hexDash (c : Char) (h : c.isWhitespace = true) : isHexDash c = false := by
  simp only [Char.isWhitespace, Bool.or_eq_true, decide_eq_true_eq] at h
  rcases h with ((h | h) | h) | h <;> subst h <;> decide

theorem digit_isHexChar (c : Char) (h : c.isDigit = true) : isHexChar c = true := by
  simp [isHexChar, h]

theorem uuidVersionOK_hex (c : Char) (h : uuidVersionOK c = true) : isHexChar c = true := by
  simp only [uuidVersionOK, decide_eq_true_eq] at h
  obtain ⟨h1, h2⟩ := h
  rw [Char.le_def, UInt32.le_def, BitVec.le_def] at h1 h2
  apply digit_isHexChar
  simp only [Char.isDigit, Bool.and_eq_true, decide_eq_true_eq, UInt32.le_def, BitVec.le_def]
  have e48 : ((48 : UInt32).toBitVec).toNat = 48 := rfl
  have e57 : ((57 : UInt32).toBitVec).toNat = 57 := rfl
  have e49 : ((('1' : Char).val).toBitVec).toNat = 49 := rfl
  have e53 : ((('5' : Char).val).toBitVec).toNat = 53 := rfl
  rw [e49] at h1
  rw [e53] at h2
  rw [e48, e57]
  omega

theorem uuidVariantOK_hex (c : Char) (h : uuidVariantOK c = true) : isHexChar c = true := by
  simp only [uuidVariantOK, decide_eq_true_eq, List.mem_cons, List.not_mem_nil, or_false] at h
  rcases h with h | h | h | h | h | h <;> subst h <;> decide

theorem uuidShape_length {u : List Char} (h : uuidShape u = true) : u.length = 36 := by
  unfold uuidShape at h
  repeat rw [Bool.and_eq_true] at h
  exact eq_of_beq h.1.1.1.1.1.1.1.1.1.1.1

/-- Membership-based hex extraction from a `(drop o).take k` all-hex segment. -/
theorem seg_hex {u : List Char} {o k : Nat}
    (h : ((u.drop o).take k).all isHexChar = true) {j : Nat}
    (hjk : j < k) (hju : o + j < u.length) :
    isHexChar (u[o + j]) = true := by
  rw [List.all_eq_true] at h
  have hb : j < ((u.drop o).take k).length := by
    simp only [List.length_take, List.length_drop]
    omega
  have e : ((u.drop o).take k)[j] = u[o + j] := by
    rw [List.getElem_take (u.drop o), List.getElem_drop u]
  have := h _ (List.getElem_mem hb)
  rwa [e] at this

/-- Every character of a UUID-shaped region is a hex digit or a dash: the
version and variant nibbles are hex digits, and the four separators are
dashes. -/
theorem uuidShape_all_hexDash {u : List Char} (h : uuidShape u = true) :
    ∀ c ∈ u, isHexDash c = true := by
  have hlen := uuidShape_length h
  unfold uuidShape at h
  repeat rw [Bool.and_eq_true] at h
  obtain ⟨⟨⟨⟨⟨⟨⟨⟨⟨⟨⟨h1, h2⟩, h3⟩, h4⟩, h5⟩, h6⟩, h7⟩, h8⟩, h9⟩, h10⟩, h11⟩, h12⟩ := h
  have h2' : ((u.drop 0).take 8).all isHexChar = true := by rwa [List.drop_zero]
  intro c hc
  obtain ⟨i, hi, rfl⟩ := List.getElem_of_mem hc
  have hi36 : i < 36 := by omega
  unfold isHexDash
  rw [Bool.or_eq_true]
  by_cases hdash : i = 8 ∨ i = 13 ∨ i = 18 ∨ i = 23
  · right
    rw [decide_eq_true_eq]
    rcases hdash with h | h | h | h <;> subst h
    · rw [← List.getD_eq_getElem u ' ' hi]
      exact eq_of_beq h3
    · rw [← List.getD_eq_getElem u ' ' hi]
      exact eq_of_beq h5
    · rw [← List.getD_eq_getElem u ' ' hi]
      exact eq_of_beq h8
    · rw [← List.getD_eq_getElem u ' ' hi]
      exact eq_of_beq h11
  · left
    have hcases : i < 8 ∨ (9 ≤ i ∧ i < 13) ∨ i = 14 ∨ (15 ≤ i ∧ i < 18) ∨ i = 19
        ∨ (20 ≤ i ∧ i < 23) ∨ (24 ≤ i ∧ i < 36) := by omega
    rcases hcases with h | h | h | h | h | h | h
    · obtain ⟨j, rfl, hjk⟩ : ∃ j, i = 0 + j ∧ j < 8 := ⟨i, by omega, by omega⟩
      exact seg_hex h2' hjk _
    · obtain ⟨j, rfl, hjk⟩ : ∃ j, i = 9 + j ∧ j < 4 := ⟨i - 9, by omega, by omega⟩
      exact seg_hex h4 hjk _
    · subst h
      rw [List.getD_eq_getElem u ' ' hi] at h6
      exact uuidVersionOK_hex _ h6
    · obtain ⟨j, rfl, hjk⟩ : ∃ j, i = 15 + j ∧ j < 3 := ⟨i - 15, by omega, by omega⟩
      exact seg_hex h7 hjk _
    · subst h
      rw [List.getD_eq_getElem u ' ' hi] at h9
      exact uuidVariantOK_hex _ h9
    · obtain ⟨j, rfl, hjk⟩ : ∃ j, i = 20 + j ∧ j < 3 := ⟨i - 20, by omega, by omega⟩
      exact seg_hex h10 hjk _
    · obtain ⟨j, rfl, hjk⟩ : ∃ j, i = 24 + j ∧ j < 12 := ⟨i - 24, by omega, by omega⟩
      exact seg_hex h12 hjk _

/-- Appending trailing whitespace preserves a UUID match (the boundary stays
a non-word character or the end). -/
theorem uuidSplit_append_ws_some {l r w : List Char}
    (hw : w.all Char.isWhitespace = true) (h : uuidSplit l = some r) :
    uuidSplit (l ++ w) = some (r ++ w) := by
  obtain ⟨hr, hlen⟩ := uuidSplit_some_drop h
  have hc : (uuidShape (l.take 36) && uuidBoundaryOK (l.drop 36)) = true := by
    by_contra hcc
    unfold uuidSplit at h
    rw [if_neg hcc] at h
    cases h
  rw [Bool.and_eq_true] at hc
  have ht : (l ++ w).take 36 = l.take 36 := by
    rw [List.take_append_eq_append_take]
    have h0 : 36 - l.length = 0 := by omega
    rw [h0, List.take_zero, List.append_nil]
  have hd : (l ++ w).drop 36 = l.drop 36 ++ w := by
    rw [List.drop_append_eq_append_drop]
    have h0 : 36 - l.length = 0 := by omega
    rw [h0, List.drop_zero]
  have hb : uuidBoundaryOK (l.drop 36 ++ w) = true := by
    cases hcase : l.drop 36 with
    | nil =>
      rw [List.nil_append]
      cases w with
      | nil => rfl
      | cons d w' =>
        rw [List.all_cons, Bool.and_eq_true] at hw
        show (!isWordChar d) = true
        rw [ws_not_word d hw.1]
        rfl
    | cons d rest =>
      have hb0 := hc.2
      rw [hcase] at hb0
      rw [List.cons_append]
      exact hb0
  unfold uuidSplit
  rw [if_pos (by rw [ht, hd, Bool.and_eq_true]; exact ⟨hc.1, hb⟩), hd, hr]

/-- Appending trailing whitespace cannot create a UUID match: whitespace is
neither a hex digit nor a dash, so no shape-valid window can use it. -/
theorem uuidSplit_append_ws_none {l w : List Char}
    (hw : w.all Char.isWhitespace = true) (h : uuidSplit l = none) :
    uuidSplit (l ++ w) = none := by
  cases hres : uuidSplit (l ++ w) with
  | none => rfl
  | some r =>
    exfalso
    obtain ⟨hr, hlen⟩ := uuidSplit_some_drop hres
    rw [List.length_append] at hlen
    have hc : (uuidShape ((l ++ w).take 36) && uuidBoundaryOK ((l ++ w).drop 36)) = true := by
      by_contra hcc
      unfold uuidSplit at hres
      rw [if_neg hcc] at hres
      cases hres
    rw [Bool.and_eq_true] at hc
    by_cases hll : 36 ≤ l.length
    · have ht : (l ++ w).take 36 = l.take 36 := by
        rw [List.take_append_eq_append_take]
        have h0 : 36 - l.length = 0 := by omega
        rw [h0, List.take_zero, List.append_nil]
      have hd : (l ++ w).drop 36 = l.drop 36 ++ w := by
        rw [List.drop_append_eq_append_drop]
        have h0 : 36 - l.length = 0 := by omega
        rw [h0, List.drop_zero]
      have hb : uuidBoundaryOK (l.drop 36) = true := by
        have hcb := hc.2
        rw [hd] at hcb
        cases hcase : l.drop 36 with
        | nil => rfl
        | cons d rest =>
          rw [hcase, List.cons_append] at hcb
          exact hcb
      have hsome : uuidSplit l = some (l.drop 36) := by
        unfold uuidSplit
        rw [if_pos (by rw [Bool.and_eq_true]; exact ⟨by rw [← ht]; exact hc.1, hb⟩)]
      rw [hsome] at h
      cases h
    · push_neg at hll
      cases hwcase : w with
      | nil =>
        rw [hwcase, List.append_nil] at hres
        rw [hres] at h
        cases h
      | cons d w' =>
        have hd_ws : d.isWhitespace = true := by
          rw [hwcase, List.all_cons, Bool.and_eq_true] at hw
          exact hw.1
        have hmem : d ∈ (l ++ w).take 36 := by
          rw [hwcase, List.take_append_eq_append_take]
          have h36 : l.take 36 = l := List.take_of_length_le (by omega)
          rw [h36]
          apply List.mem_append_right
          have hsplit : 36 - l.length = (36 - l.length - 1) + 1 := by
            rw [hwcase] at hlen
            simp only [List.length_cons] at hlen
            omega
          rw [hsplit]
          exact List.mem_cons_self _ _
        have hhex := uuidShape_all_hexDash hc.1 d hmem
        rw [ws_not_hexDash d hd_ws] at hhex
        cases hhex

theorem dropWhile_append_of_all {p : Char → Bool} {a : List Char} (b : List Char)
    (ha : a.all p = true) : (a ++ b).dropWhile p = b.dropWhile p := by
  induction a with
  | nil => rfl
  | cons x a ih =>
    rw [List.all_cons, Bool.and_eq_true] at ha
    rw [List.cons_append, List.dropWhile_cons, if_pos ha.1]
    exact ih ha.2

/-- `takeWhile`/`dropWhile` over an append whose right part starts with a
failing element (or is empty) act on the left part only. -/
theorem takeWhile_dropWhile_append {p : Char → Bool} (a : List Char) {b : List Char}
    (hb : b = [] ∨ ∃ d t, b = d :: t ∧ p d = false) :
    (a ++ b).takeWhile p = a.takeWhile p ∧ (a ++ b).dropWhile p = a.dropWhile p ++ b := by
  induction a with
  | nil =>
    rcases hb with rfl | ⟨d, t, rfl, hd⟩
    · exact ⟨rfl, rfl⟩
    · constructor
      · rw [List.nil_append, List.takeWhile_cons, if_neg (by simp [hd])]
        rfl
      · rw [List.nil_append, List.dropWhile_cons, if_neg (by simp [hd])]
        rfl
  | cons x a ih =>
    by_cases hx : p x = true
    · constructor
      · rw [List.cons_append, List.takeWhile_cons, if_pos hx, List.takeWhile_cons,
          if_pos hx, ih.1]
      · rw [List.cons_append, List.dropWhile_cons, if_pos hx, List.dropWhile_cons,
          if_pos hx, ih.2]
    · constructor
      · rw [List.cons_append, List.takeWhile_cons, if_neg hx, List.takeWhile_cons, if_neg hx]
      · rw [List.cons_append, List.dropWhile_cons, if_neg hx, List.dropWhile_cons, if_neg hx]
        rfl

theorem rdropWhile_append (p : Char → Bool) (a b : List Char) :
    (a ++ b).rdropWhile p =
      if b.rdropWhile p = [] then a.rdropWhile p else a ++ b.rdropWhile p := by
  unfold List.rdropWhile
  rw [List.reverse_append, List.dropWhile_append]
  by_cases hb : (b.reverse.dropWhile p).isEmpty = true
  · rw [if_pos hb]
    rw [List.isEmpty_iff] at hb
    rw [if_pos (by rw [hb, List.reverse_nil])]
  · rw [if_neg hb, List.reverse_append, List.reverse_reverse]
    rw [if_neg (fun hx => hb (by rw [List.reverse_eq_nil_iff] at hx; rw [hx]; rfl))]

theorem rdropWhile_append_rtakeWhile (p : Char → Bool) (l : List Char) :
    l.rdropWhile p ++ l.rtakeWhile p = l := by
  unfold List.rdropWhile List.rtakeWhile
  rw [← List.reverse_append, List.takeWhile_append_dropWhile, List.reverse_reverse]

theorem containsSub_cons (n : List Char) (c : Char) (t : List Char) :
    containsSub n (c :: t) = (n.isPrefixOf (c :: t) || containsSub n t) := rfl

theorem containsSub_of_prefix {n z : List Char} (y : List Char)
    (h : n.isPrefixOf z = true) : containsSub n (y ++ z) = true := by
  induction y with
  | nil =>
    cases z with
    | nil =>
      cases n with
      | nil => rfl
      | cons a as => cases h
    | cons c t =>
      rw [List.nil_append, containsSub_cons, h, Bool.true_or]
  | cons x y ih =>
    rw [List.cons_append, containsSub_cons, ih, Bool.or_true]

theorem containsSub_append_right (n a : List Char) {b : List Char}
    (h : containsSub n b = true) : containsSub n (a ++ b) = true := by
  induction a with
  | nil => exact h
  | cons x a ih =>
    rw [List.cons_append, containsSub_cons, ih, Bool.or_true]

/-- A substring occurrence in `a ++ x` either starts inside `a` (at a
nonempty suffix of `a`) or lies inside `x`. -/
theorem containsSub_split {n : List Char} :
    ∀ (a x : List Char), containsSub n (a ++ x) = true →
      (∃ a' b, a = a' ++ b ∧ b ≠ [] ∧ n.isPrefixOf (b ++ x) = true)
        ∨ containsSub n x = true := by
  intro a
  induction a with
  | nil =>
    intro x h
    right
    exact h
  | cons c a ih =>
    intro x h
    rw [List.cons_append, containsSub_cons, Bool.or_eq_true] at h
    cases h with
    | inl hp =>
      left
      exact ⟨[], c :: a, rfl, List.cons_ne_nil _ _, by rw [List.cons_append]; exact hp⟩
    | inr hc =>
      cases ih x hc with
      | inl hl =>
        obtain ⟨a', b, rfl, hbne, hp⟩ := hl
        left
        exact ⟨c :: a', b, rfl, hbne, hp⟩
      | inr hr =>
        right
        exact hr

theorem mem_of_containsSub {n w : List Char} {c : Char} (h : containsSub n w = true)
    (hc : c ∈ n) : c ∈ w := by
  induction w with
  | nil =>
    have hn : n.isEmpty = true := h
    rw [List.isEmpty_iff] at hn
    subst hn
    cases hc
  | cons d t ih =>
    rw [containsSub_cons, Bool.or_eq_true] at h
    cases h with
    | inl hp =>
      rw [List.isPrefixOf_iff_prefix] at hp
      exact hp.subset hc
    | inr hcc =>
      exact List.mem_cons_of_mem d (ih hcc)

theorem wordClass_none_of_mem {w : List Char} {c : Char} (hc : c ∈ w)
    (hhex : isHexChar c = false) (hdig : c.isDigit = false) : wordClass w = none := by
  have hA : ¬((w.all isHexChar && decide (8 ≤ w.length)) = true) := by
    rw [Bool.and_eq_true]
    intro hcon
    rw [List.all_eq_true] at hcon
    rw [hcon.1 c hc] at hhex
    cases hhex
  have hB : ¬(w.all Char.isDigit = true) := by
    intro hcon
    rw [List.all_eq_true] at hcon
    rw [hcon c hc] at hdig
    cases hdig
  unfold wordClass
  rw [if_neg hA, if_neg hB]

theorem wordClass_some_all_hex {w v : List Char}
    (h : wordClass w = some v) : w.all isHexChar = true := by
  unfold wordClass at h
  by_cases hA : (w.all isHexChar && decide (8 ≤ w.length)) = true
  · rw [Bool.and_eq_true] at hA
    exact hA.1
  · rw [if_neg hA] at h
    by_cases hB : w.all Char.isDigit = true
    · rw [List.all_eq_true] at hB ⊢
      intro c hc
      exact digit_isHexChar c (hB c hc)
    · rw [if_neg hB] at h
      cases h

/-- Structural inversion of the differ-only-in-ids relation at a cons pair. -/
theorem diffOnlyIds_cons_inv {c1 : Char} {t1 : List Char} {c2 : Char} {t2 : List Char}
    (h : diffOnlyIds (c1 :: t1) (c2 :: t2) = true) :
    (isWordChar c1 = true ∧ isWordChar c2 = true ∧
      ((∃ r1 r2, uuidSplit (c1 :: t1) = some r1 ∧ uuidSplit (c2 :: t2) = some r2 ∧
          diffOnlyIds r1 r2 = true)
        ∨ (uuidSplit (c1 :: t1) = none ∧ uuidSplit (c2 :: t2) = none ∧
            ((c1 :: t1).takeWhile isWordChar == (c2 :: t2).takeWhile isWordChar
              || ((wordClass ((c1 :: t1).takeWhile isWordChar)).isSome
                  && wordClass ((c1 :: t1).takeWhile isWordChar)
                    == wordClass ((c2 :: t2).takeWhile isWordChar))) = true ∧
            diffOnlyIds ((c1 :: t1).dropWhile isWordChar)
              ((c2 :: t2).dropWhile isWordChar) = true)))
    ∨ (isWordChar c1 = false ∧ isWordChar c2 = false ∧ c1 = c2 ∧
        diffOnlyIds t1 t2 = true) := by
  rw [diffOnlyIds_cons] at h
  by_cases hw1 : isWordChar c1 = true <;> by_cases hw2 : isWordChar c2 = true
  · left
    refine ⟨hw1, hw2, ?_⟩
    rw [if_pos (by simp [hw1, hw2])] at h
    cases hu1 : uuidSplit (c1 :: t1) with
    | some r1 =>
      cases hu2 : uuidSplit (c2 :: t2) with
      | some r2 =>
        rw [hu1, hu2] at h
        exact Or.inl ⟨r1, r2, rfl, rfl, h⟩
      | none =>
        rw [hu1, hu2] at h
        have h' : (false : Bool) = true := h
        exact absurd h' (by decide)
    | none =>
      cases hu2 : uuidSplit (c2 :: t2) with
      | some r2 =>
        rw [hu1, hu2] at h
        have h' : (false : Bool) = true := h
        exact absurd h' (by decide)
      | none =>
        rw [hu1, hu2] at h
        have h' : (((c1 :: t1).takeWhile isWordChar == (c2 :: t2).takeWhile isWordChar
            || ((wordClass ((c1 :: t1).takeWhile isWordChar)).isSome
                && wordClass ((c1 :: t1).takeWhile isWordChar)
                  == wordClass ((c2 :: t2).takeWhile isWordChar)))
            && diffOnlyIds ((c1 :: t1).dropWhile isWordChar)
                ((c2 :: t2).dropWhile isWordChar)) = true := h
        rw [Bool.and_eq_true] at h'
        exact Or.inr ⟨rfl, rfl, h'.1, h'.2⟩
  · rw [if_neg (by simp [hw2]), if_neg (by simp [hw1])] at h
    exact absurd h (by decide)
  · rw [if_neg (by simp [hw1]), if_neg (by simp [hw2])] at h
    exact absurd h (by decide)
  · rw [if_neg (by simp [hw1]), if_pos (by simp [hw1, hw2])] at h
    rw [Bool.and_eq_true] at h
    right
    exact ⟨Bool.of_not_eq_true hw1, Bool.of_not_eq_true hw2, eq_of_beq h.1, h.2⟩

theorem diffOnlyIds_sep_intro {c : Char} (h : isWordChar c = false) {t1 t2 : List Char}
    (hr : diffOnlyIds t1 t2 = true) : diffOnlyIds (c :: t1) (c :: t2) = true := by
  rw [diffOnlyIds_cons, if_neg (by simp [h]), if_pos (by simp [h]), Bool.and_eq_true]
  exact ⟨by simp, hr⟩

theorem diffOnlyIds_uuid_intro {l1 l2 r1 r2 : List Char}
    (h1 : uuidSplit l1 = some r1) (h2 : uuidSplit l2 = some r2)
    (hr : diffOnlyIds r1 r2 = true) : diffOnlyIds l1 l2 = true := by
  obtain ⟨c1, t1, rfl, hw1⟩ := uuidSplit_head_word h1
  obtain ⟨c2, t2, rfl, hw2⟩ := uuidSplit_head_word h2
  rw [diffOnlyIds_cons, if_pos (by simp [hw1, hw2]), h1, h2]
  exact hr

/-- Build the relation from aligned word runs followed by related rests. -/
theorem diffOnlyIds_run_intro {w1 w2 s1 s2 : List Char}
    (hw1 : w1 ≠ []) (hw2 : w2 ≠ [])
    (ha1 : w1.all isWordChar = true) (ha2 : w2.all isWordChar = true)
    (hs1 : s1 = [] ∨ ∃ d t, s1 = d :: t ∧ isWordChar d = false)
    (hs2 : s2 = [] ∨ ∃ d t, s2 = d :: t ∧ isWordChar d = false)
    (hu1 : uuidSplit (w1 ++ s1) = none) (hu2 : uuidSplit (w2 ++ s2) = none)
    (hA : (w1 == w2 || ((wordClass w1).isSome && wordClass w1 == wordClass w2)) = true)
    (hr : diffOnlyIds s1 s2 = true) :
    diffOnlyIds (w1 ++ s1) (w2 ++ s2) = true := by
  match w1, w2 with
  | [], _ => exact absurd rfl hw1
  | _ :: _, [] => exact absurd rfl hw2
  | c1 :: t1', c2 :: t2' =>
    have hd1 := takeWhile_append_run isWordChar (c1 :: t1') s1 ha1 hs1
    have hd2 := takeWhile_append_run isWordChar (c2 :: t2') s2 ha2 hs2
    have hwc1 : isWordChar c1 = true := by
      rw [List.all_cons, Bool.and_eq_true] at ha1
      exact ha1.1
    have hwc2 : isWordChar c2 = true := by
      rw [List.all_cons, Bool.and_eq_true] at ha2
      exact ha2.1
    rw [List.cons_append] at hu1 hd1 ⊢
    rw [List.cons_append] at hu2 hd2 ⊢
    rw [diffOnlyIds_cons, if_pos (by simp [hwc1, hwc2]), hu1, hu2]
    show (((c1 :: (t1' ++ s1)).takeWhile isWordChar == (c2 :: (t2' ++ s2)).takeWhile isWordChar
        || ((wordClass ((c1 :: (t1' ++ s1)).takeWhile isWordChar)).isSome
            && wordClass ((c1 :: (t1' ++ s1)).takeWhile isWordChar)
              == wordClass ((c2 :: (t2' ++ s2)).takeWhile isWordChar)))
        && diffOnlyIds ((c1 :: (t1' ++ s1)).dropWhile isWordChar)
            ((c2 :: (t2' ++ s2)).dropWhile isWordChar)) = true
    rw [hd1.1, hd1.2, hd2.1, hd2.2, Bool.and_eq_true]
    exact ⟨hA, hr⟩

theorem collapse_nonword : ∀ {l : List Char}, (∀ c ∈ l, isWordChar c = false) →
    collapseLine l = l := by
  intro l
  induction l with
  | nil => intro _; rfl
  | cons c t ih =>
    intro h
    rw [collapse_sep t (h c (List.mem_cons_self c t)),
      ih (fun d hd => h d (List.mem_cons_of_mem c hd))]

theorem substTok_ne_nil {w : List Char} (hw : w ≠ []) : substTok w ≠ [] := by
  unfold substTok wordClass
  by_cases hA : (w.all isHexChar && decide (8 ≤ w.length)) = true
  · rw [if_pos hA]
    show "<HEX>".toList ≠ []
    decide
  · rw [if_neg hA]
    by_cases hB : w.all Char.isDigit = true
    · rw [if_pos hB]
      show "<NUM>".toList ≠ []
      decide
    · rw [if_neg hB]
      exact hw

theorem wordClass_some_val {w v : List Char} (h : wordClass w = some v) :
    v = "<HEX>".toList ∨ v = "<NUM>".toList := by
  unfold wordClass at h
  by_cases hA : (w.all isHexChar && decide (8 ≤ w.length)) = true
  · rw [if_pos hA] at h
    exact Or.inl (Option.some.inj h).symm
  · rw [if_neg hA] at h
    by_cases hB : w.all Char.isDigit = true
    · rw [if_pos hB] at h
      exact Or.inr (Option.some.inj h).symm
    · rw [if_neg hB] at h
      cases h

theorem collapse_ne_nil : ∀ {l : List Char}, l ≠ [] → collapseLine l ≠ [] := by
  intro l hl
  match l with
  | c :: t =>
    rw [collapse_cons]
    by_cases hw : isWordChar c = true
    · rw [if_pos hw]
      cases hu : uuidSplit (c :: t) with
      | some rest => simp
      | none =>
        have htw : (c :: t).takeWhile isWordChar = c :: t.takeWhile isWordChar := by
          rw [List.takeWhile_cons, if_pos hw]
        rw [htw]
        cases hsub : substTok (c :: t.takeWhile isWordChar) with
        | nil => exact absurd hsub (substTok_ne_nil (List.cons_ne_nil _ _))
        | cons d ds => simp
    · rw [if_neg hw]
      simp

theorem collapse_ws_prefix (l : List Char) :
    collapseLine l =
      l.takeWhile Char.isWhitespace ++ collapseLine (l.dropWhile Char.isWhitespace) := by
  induction l with
  | nil => rfl
  | cons c t ih =>
    by_cases hc : c.isWhitespace = true
    · rw [List.takeWhile_cons, if_pos hc, List.dropWhile_cons, if_pos hc,
        collapse_sep t (ws_not_word c hc), ih, List.cons_append]
    · rw [List.takeWhile_cons, if_neg hc, List.dropWhile_cons, if_neg hc, List.nil_append]

theorem collapse_append_ws : ∀ (n : Nat) (l w : List Char), l.length ≤ n →
    w.all Char.isWhitespace = true →
    collapseLine (l ++ w) = collapseLine l ++ w := by
  intro n
  induction n using Nat.strong_induction_on with
  | _ n ih =>
    intro l w hl hw
    match l with
    | [] =>
      rw [List.nil_append]
      have hcw : collapseLine w = w :=
        collapse_nonword (fun c hc =>
          ws_not_word c (by rw [List.all_eq_true] at hw; exact hw c hc))
      rw [hcw]
      rfl
    | c :: t =>
      simp only [List.length_cons] at hl
      by_cases hwc : isWordChar c = true
      · cases hu : uuidSplit (c :: t) with
        | some r =>
          have hu' : uuidSplit ((c :: t) ++ w) = some (r ++ w) :=
            uuidSplit_append_ws_some hw hu
          obtain ⟨hrd, hrl⟩ := uuidSplit_some_drop hu
          have hrlen : r.length ≤ t.length := by
            rw [hrd, List.length_drop]
            simp only [List.length_cons]
            omega
          rw [collapse_uuid hu', collapse_uuid hu,
            ih t.length (by omega) r w (by omega) hw, List.append_assoc]
        | none =>
          have hu' : uuidSplit ((c :: t) ++ w) = none := uuidSplit_append_ws_none hw hu
          have hbw : w = [] ∨ ∃ d t', w = d :: t' ∧ isWordChar d = false := by
            cases w with
            | nil => exact Or.inl rfl
            | cons d t' =>
              rw [List.all_cons, Bool.and_eq_true] at hw
              exact Or.inr ⟨d, t', rfl, ws_not_word d hw.1⟩
          have hdec := takeWhile_dropWhile_append (p := isWordChar) (c :: t) hbw
          rw [List.cons_append] at hu' hdec ⊢
          rw [collapse_word_head hwc hu', hdec.1, hdec.2, collapse_word_head hwc hu]
          have hdw : ((c :: t).dropWhile isWordChar).length ≤ t.length := by
            rw [List.dropWhile_cons, if_pos hwc]
            exact length_dropWhile_le_self _ t
          rw [ih t.length (by omega) _ w (by omega) hw, List.append_assoc]
      · have hwc' : isWordChar c = false := Bool.of_not_eq_true hwc
        rw [List.cons_append, collapse_sep (t ++ w) hwc', collapse_sep t hwc',
          ih t.length (by omega) t w (by omega) hw, List.cons_append]

theorem collapseLine_append_ws {l w : List Char} (hw : w.all Char.isWhitespace = true) :
    collapseLine (l ++ w) = collapseLine l ++ w :=
  collapse_append_ws l.length l w (le_refl _) hw

theorem collapse_head_not_ws {c : Char} (t : List Char) (hc : c.isWhitespace = false) :
    ∃ d u, collapseLine (c :: t) = d :: u ∧ d.isWhitespace = false := by
  rw [collapse_cons]
  by_cases hw : isWordChar c = true
  · rw [if_pos hw]
    cases hu : uuidSplit (c :: t) with
    | some rest => exact ⟨'<', "UUID>".toList ++ collapseLine rest, rfl, by decide⟩
    | none =>
      have htw : (c :: t).takeWhile isWordChar = c :: t.takeWhile isWordChar := by
        rw [List.takeWhile_cons, if_pos hw]
      rw [htw]
      unfold substTok wordClass
      by_cases hA : ((c :: t.takeWhile isWordChar).all isHexChar
          && decide (8 ≤ (c :: t.takeWhile isWordChar).length)) = true
      · rw [if_pos hA]
        exact ⟨'<', _, rfl, by decide⟩
      · rw [if_neg hA]
        by_cases hB : (c :: t.takeWhile isWordChar).all Char.isDigit = true
        · rw [if_pos hB]
          exact ⟨'<', _, rfl, by decide⟩
        · rw [if_neg hB]
          exact ⟨c, _, rfl, hc⟩
  · rw [if_neg hw]
    exact ⟨c, _, rfl, hc⟩

/-- The substitution scan preserves "the last character is not whitespace":
replacement tokens end in `>` and kept text is unchanged. -/
theorem collapse_last_not_ws : ∀ (n : Nat) (l : List Char), l.length ≤ n →
    (∀ c, l.getLast? = some c → c.isWhitespace = false) →
    ∀ c, (collapseLine l).getLast? = some c → c.isWhitespace = false := by
  intro n
  induction n using Nat.strong_induction_on with
  | _ n ih =>
    intro l hl hlast
    match l with
    | [] => intro c hc; cases hc
    | a :: t =>
      simp only [List.length_cons] at hl
      by_cases hwa : isWordChar a = true
      · cases hu : uuidSplit (a :: t) with
        | some r =>
          rw [collapse_uuid hu]
          obtain ⟨hrd, hrl⟩ := uuidSplit_some_drop hu
          have hrlen : r.length ≤ t.length := by
            rw [hrd, List.length_drop]
            simp only [List.length_cons]
            omega
          by_cases hrne : r = []
          · subst hrne
            intro c hc
            have he : ("<UUID>".toList ++ collapseLine []).getLast? = some '>' := by decide
            rw [he] at hc
            cases hc
            decide
          · have hcne : collapseLine r ≠ [] := collapse_ne_nil hrne
            intro c hc
            rw [List.getLast?_append_of_ne_nil _ hcne] at hc
            refine ih t.length (by omega) r (by omega) ?_ c hc
            intro d hd
            apply hlast d
            have hsplit : a :: t = (a :: t).take 36 ++ r := by
              rw [hrd, List.take_append_drop]
            rw [hsplit, List.getLast?_append_of_ne_nil _ hrne]
            exact hd
        | none =>
          rw [collapse_word_head hwa hu]
          have hdec : a :: t = (a :: t).takeWhile isWordChar ++ (a :: t).dropWhile isWordChar :=
            (List.takeWhile_append_dropWhile isWordChar (a :: t)).symm
          by_cases hdwnil : (a :: t).dropWhile isWordChar = []
          · rw [hdwnil, show collapseLine [] = [] from rfl, List.append_nil]
            cases hcls : wordClass ((a :: t).takeWhile isWordChar) with
            | some v =>
              have hv : substTok ((a :: t).takeWhile isWordChar) = v := by
                unfold substTok
                rw [hcls]
                rfl
              rw [hv]
              rcases wordClass_some_val hcls with rfl | rfl
              · intro c hc
                have he : ("<HEX>".toList).getLast? = some '>' := by decide
                rw [he] at hc
                cases hc
                decide
              · intro c hc
                have he : ("<NUM>".toList).getLast? = some '>' := by decide
                rw [he] at hc
                cases hc
                decide
            | none =>
              have hv : substTok ((a :: t).takeWhile isWordChar)
                  = (a :: t).takeWhile isWordChar := by
                unfold substTok
                rw [hcls]
                rfl
              rw [hv]
              intro c hc
              apply hlast c
              rw [hdec, hdwnil, List.append_nil]
              exact hc
          · have hcne : collapseLine ((a :: t).dropWhile isWordChar) ≠ [] :=
              collapse_ne_nil hdwnil
            intro c hc
            rw [List.getLast?_append_of_ne_nil _ hcne] at hc
            have hdwlen : ((a :: t).dropWhile isWordChar).length ≤ t.length := by
              rw [List.dropWhile_cons, if_pos hwa]
              exact length_dropWhile_le_self _ t
            refine ih t.length (by omega) _ (by omega) ?_ c hc
            intro e he
            apply hlast e
            rw [hdec, List.getLast?_append_of_ne_nil _ hdwnil]
            exact he
      · have hwa' : isWordChar a = false := Bool.of_not_eq_true hwa
        rw [collapse_sep t hwa']
        by_cases htnil : t = []
        · subst htnil
          intro c hc
          have he : (a :: collapseLine ([] : List Char)).getLast? = some a := rfl
          rw [he] at hc
          cases hc
          exact hlast a rfl
        · have hcne : collapseLine t ≠ [] := collapse_ne_nil htnil
          intro c hc
          have he : (a :: collapseLine t).getLast? = (collapseLine t).getLast? := by
            rw [show a :: collapseLine t = [a] ++ collapseLine t from rfl,
              List.getLast?_append_of_ne_nil _ hcne]
          rw [he] at hc
          refine ih t.length (by omega) t (by omega) ?_ c hc
          intro e he2
          apply hlast e
          rw [show a :: t = [a] ++ t from rfl, List.getLast?_append_of_ne_nil _ htnil]
          exact he2

theorem pyStrip_extract {wsA X wsB : List Char}
    (hA : wsA.all Char.isWhitespace = true) (hB : wsB.all Char.isWhitespace = true)
    (hX : X = [] ∨ ((∃ d u, X = d :: u ∧ d.isWhitespace = false)
      ∧ (∀ h : X ≠ [], (X.getLast h).isWhitespace = false))) :
    pyStrip (wsA ++ (X ++ wsB)) = X := by
  unfold pyStrip
  rw [dropWhile_append_of_all _ hA]
  have hB' : wsB.rdropWhile Char.isWhitespace = [] := by
    rw [List.rdropWhile_eq_nil_iff]
    intro x hx
    rw [List.all_eq_true] at hB
    exact hB x hx
  rcases hX with rfl | ⟨⟨d, u, rfl, hd⟩, hlast⟩
  · rw [List.nil_append]
    have hBd : wsB.dropWhile Char.isWhitespace = [] := by
      rw [List.dropWhile_eq_nil_iff]
      intro x hx
      rw [List.all_eq_true] at hB
      exact hB x hx
    rw [hBd]
    rfl
  · rw [List.cons_append, List.dropWhile_cons, if_neg (by simp [hd]), ← List.cons_append,
      rdropWhile_append, if_pos hB']
    rw [List.rdropWhile_eq_self_iff]
    intro hl
    rw [hlast hl]
    exact Bool.false_ne_true

/-- The substitution scan commutes with Python `str.strip()`. -/
theorem pyStrip_collapse (l : List Char) :
    pyStrip (collapseLine l) = collapseLine (pyStrip l) := by
  have hA1 := collapse_ws_prefix l
  have hdecomp := rdropWhile_append_rtakeWhile Char.isWhitespace
    (l.dropWhile Char.isWhitespace)
  have hwsB : ((l.dropWhile Char.isWhitespace).rtakeWhile Char.isWhitespace).all
      Char.isWhitespace = true := by
    rw [List.all_eq_true]
    intro x hx
    exact List.mem_rtakeWhile_imp hx
  have hA2 : collapseLine (l.dropWhile Char.isWhitespace)
      = collapseLine ((l.dropWhile Char.isWhitespace).rdropWhile Char.isWhitespace)
        ++ (l.dropWhile Char.isWhitespace).rtakeWhile Char.isWhitespace := by
    conv_lhs => rw [← hdecomp]
    exact collapseLine_append_ws hwsB
  have hps : pyStrip l = (l.dropWhile Char.isWhitespace).rdropWhile Char.isWhitespace := rfl
  rw [hA1, hA2, hps]
  apply pyStrip_extract (takeWhile_all _ _) hwsB
  cases hstr : (l.dropWhile Char.isWhitespace).rdropWhile Char.isWhitespace with
  | nil => exact Or.inl rfl
  | cons d s' =>
    right
    have hdns : d.isWhitespace = false := by
      obtain ⟨k, hk⟩ := List.rdropWhile_prefix Char.isWhitespace
        (l.dropWhile Char.isWhitespace)
      rw [hstr] at hk
      exact dropWhile_head_false Char.isWhitespace l d (s' ++ k)
        (by rw [← hk, List.cons_append])
    constructor
    · obtain ⟨e, u, he, hens⟩ := collapse_head_not_ws s' hdns
      exact ⟨e, u, he, hens⟩
    · intro h
      have hlastin : ∀ c, ((l.dropWhile Char.isWhitespace).rdropWhile
          Char.isWhitespace).getLast? = some c → c.isWhitespace = false := by
        intro c hc
        cases hne : (l.dropWhile Char.isWhitespace).rdropWhile Char.isWhitespace with
        | nil => rw [hne] at hc; cases hc
        | cons x xs =>
          have hnenil : (l.dropWhile Char.isWhitespace).rdropWhile Char.isWhitespace
              ≠ [] := by rw [hne]; exact List.cons_ne_nil _ _
          have hnot := List.rdropWhile_last_not Char.isWhitespace
            (l.dropWhile Char.isWhitespace) hnenil
          rw [List.getLast?_eq_getLast _ hnenil] at hc
          cases hc
          exact Bool.of_not_eq_true hnot
      have hcoll := collapse_last_not_ws (d :: s').length (d :: s') (le_refl _)
        (by rw [← hstr]; exact hlastin) ((collapseLine (d :: s')).getLast h)
        (List.getLast?_eq_getLast _ h)
      exact hcoll

theorem pyStrip_idem (l : List Char) : pyStrip (pyStrip l) = pyStrip l := by
  show pyStrip ((l.dropWhile Char.isWhitespace).rdropWhile Char.isWhitespace)
      = (l.dropWhile Char.isWhitespace).rdropWhile Char.isWhitespace
  unfold pyStrip
  cases hstr : (l.dropWhile Char.isWhitespace).rdropWhile Char.isWhitespace with
  | nil => rfl
  | cons d s' =>
    obtain ⟨k, hk⟩ := List.rdropWhile_prefix Char.isWhitespace
      (l.dropWhile Char.isWhitespace)
    rw [hstr] at hk
    have hdns : d.isWhitespace = false :=
      dropWhile_head_false Char.isWhitespace l d (s' ++ k)
        (by rw [← hk, List.cons_append])
    rw [List.dropWhile_cons, if_neg (by simp [hdns]), ← hstr]
    exact List.rdropWhile_idempotent _ _

/-- `normalize_text_for_fingerprint` on a stripped line depends only on the
collapsed form of the raw line. -/
theorem normalize_pyStrip (l : List Char) (limit : Nat) :
    normalize_text_for_fingerprint (pyStrip l) limit
      = ((pyStrip (collapseLine l)).map Char.toLower).take limit := by
  unfold normalize_text_for_fingerprint
  rw [pyStrip_collapse (pyStrip l), pyStrip_idem, pyStrip_collapse l]

theorem isPrefixOf_decomp {n l : List Char} (h : n.isPrefixOf l = true) :
    ∃ rest, l = n ++ rest := by
  rw [List.isPrefixOf_iff_prefix] at h
  obtain ⟨t, ht⟩ := h
  exact ⟨t, ht.symm⟩

theorem isPrefixOf_append_self (n rest : List Char) : n.isPrefixOf (n ++ rest) = true := by
  rw [List.isPrefixOf_iff_prefix]
  exact List.prefix_append n rest

theorem containsSub_append_left {n a : List Char} (x : List Char)
    (h : containsSub n a = true) : containsSub n (a ++ x) = true := by
  induction a with
  | nil =>
    have hn : n.isEmpty = true := h
    rw [List.isEmpty_iff] at hn
    subst hn
    cases x with
    | nil => rfl
    | cons c t =>
      have hpre : (([] : List Char)).isPrefixOf (c :: t) = true := rfl
      rw [List.nil_append, containsSub_cons, hpre, Bool.true_or]
  | cons y a' ih =>
    rw [containsSub_cons, Bool.or_eq_true] at h
    rw [List.cons_append, containsSub_cons, Bool.or_eq_true]
    cases h with
    | inl hp =>
      left
      rw [List.isPrefixOf_iff_prefix] at hp ⊢
      exact hp.trans (List.prefix_append _ _)
    | inr hc =>
      right
      exact ih hc

/-- A needle of word characters matched against `b ++ s` where `s` starts
with a non-word character (or is empty) must fit inside `b`. -/
theorem needle_le_run : ∀ (n b s rest : List Char), n.all isWordChar = true →
    (s = [] ∨ ∃ d t, s = d :: t ∧ isWordChar d = false) →
    b ++ s = n ++ rest → n.length ≤ b.length := by
  intro n
  induction n with
  | nil =>
    intro b s rest _ _ _
    simp
  | cons c n' ih =>
    intro b s rest hall hs heq
    cases b with
    | nil =>
      rw [List.nil_append, List.cons_append] at heq
      rcases hs with rfl | ⟨d, t, rfl, hd⟩
      · cases heq
      · injection heq with h1 _
        rw [List.all_cons, Bool.and_eq_true] at hall
        rw [h1, hall.1] at hd
        cases hd
    | cons x b' =>
      rw [List.cons_append, List.cons_append] at heq
      injection heq with _ h2
      rw [List.all_cons, Bool.and_eq_true] at hall
      simp only [List.length_cons]
      have := ih b' s rest hall.2 hs h2
      omega

theorem append_eq_of_le : ∀ (n x y rest : List Char), x ++ y = n ++ rest →
    n.length ≤ x.length → ∃ x', x = n ++ x' ∧ x' ++ y = rest := by
  intro n
  induction n with
  | nil =>
    intro x y rest heq _
    rw [List.nil_append] at heq
    exact ⟨x, rfl, heq⟩
  | cons c n' ih =>
    intro x y rest heq hlen
    cases x with
    | nil =>
      simp only [List.length_cons, List.length_nil] at hlen
      omega
    | cons x0 x' =>
      rw [List.cons_append, List.cons_append] at heq
      injection heq with h1 h2
      simp only [List.length_cons] at hlen
      obtain ⟨x'', hx1, hx2⟩ := ih x' y rest h2 (by omega)
      refine ⟨x'', ?_, hx2⟩
      rw [h1, hx1, List.cons_append]

theorem uuidSplit_some_shape {l r : List Char} (h : uuidSplit l = some r) :
    uuidShape (l.take 36) = true := by
  have hc : (uuidShape (l.take 36) && uuidBoundaryOK (l.drop 36)) = true := by
    by_contra hcc
    unfold uuidSplit at h
    rw [if_neg hcc] at h
    cases h
  rw [Bool.and_eq_true] at hc
  exact hc.1

theorem uuidSplit_some_boundary {l r : List Char} (h : uuidSplit l = some r) :
    r = [] ∨ ∃ d t, r = d :: t ∧ isWordChar d = false := by
  have hc : (uuidShape (l.take 36) && uuidBoundaryOK (l.drop 36)) = true := by
    by_contra hcc
    unfold uuidSplit at h
    rw [if_neg hcc] at h
    cases h
  rw [Bool.and_eq_true] at hc
  obtain ⟨hr, -⟩ := uuidSplit_some_drop h
  cases hrc : r with
  | nil => exact Or.inl rfl
  | cons d t =>
    right
    refine ⟨d, t, rfl, ?_⟩
    have hb := hc.2
    rw [← hr, hrc] at hb
    have hb' : (!isWordChar d) = true := hb
    cases hw : isWordChar d with
    | false => rfl
    | true =>
      rw [hw] at hb'
      cases hb'

/-- A non-hexDash character within the first 36 positions rules out a UUID
match at the head. -/
theorem uuidSplit_none_of_sep {a : List Char} {c : Char} (b : List Char)
    (ha : a.length < 36) (hc : isHexDash c = false) :
    uuidSplit (a ++ c :: b) = none := by
  cases hres : uuidSplit (a ++ c :: b) with
  | none => rfl
  | some r =>
    exfalso
    have hshape := uuidSplit_some_shape hres
    have hmem : c ∈ (a ++ c :: b).take 36 := by
      rw [List.take_append_eq_append_take]
      have h36 : a.take 36 = a := List.take_of_length_le (by omega)
      rw [h36]
      apply List.mem_append_right
      have hsplit : 36 - a.length = (36 - a.length - 1) + 1 := by omega
      rw [hsplit]
      exact List.mem_cons_self _ _
    have := uuidShape_all_hexDash hshape c hmem
    rw [hc] at this
    cases this

theorem rel_run_eq {w1 w2 : List Char}
    (hA : (w1 == w2 || ((wordClass w1).isSome && wordClass w1 == wordClass w2)) = true)
    (hnone : wordClass w1 = none) : w1 = w2 := by
  rw [Bool.or_eq_true] at hA
  cases hA with
  | inl h => exact eq_of_beq h
  | inr h =>
    rw [Bool.and_eq_true, hnone] at h
    have hf : (false : Bool) = true := h.1
    exact absurd hf (by decide)

theorem bool_eq_of_imp {a b : Bool} (h1 : a = true → b = true)
    (h2 : b = true → a = true) : a = b := by
  cases a with
  | true => exact (h1 rfl).symm
  | false =>
    cases b with
    | false => rfl
    | true => exact h2 rfl

/-- The differ-only-in-ids relation is symmetric. -/
theorem diffOnlyIds_symm_aux : ∀ (n : Nat) (l1 l2 : List Char), l1.length ≤ n →
    diffOnlyIds l1 l2 = true → diffOnlyIds l2 l1 = true := by
  intro n
  induction n using Nat.strong_induction_on with
  | _ n ih =>
    intro l1 l2 hl h
    match l1, l2 with
    | [], [] => rfl
    | [], c2 :: t2 =>
      rw [diffOnlyIds_nil_cons] at h
      exact absurd h (by decide)
    | c1 :: t1, [] =>
      rw [diffOnlyIds_cons_nil] at h
      exact absurd h (by decide)
    | c1 :: t1, c2 :: t2 =>
      simp only [List.length_cons] at hl
      rcases diffOnlyIds_cons_inv h with ⟨hw1, hw2, hcase⟩ | ⟨hw1, hw2, rfl, hrec⟩
      · rcases hcase with ⟨r1, r2, hu1, hu2, hrec⟩ | ⟨hu1, hu2, hA, hrec⟩
        · obtain ⟨hrd1, hrl1⟩ := uuidSplit_some_drop hu1
          have hr1len : r1.length ≤ t1.length := by
            rw [hrd1, List.length_drop]
            simp only [List.length_cons]
            omega
          exact diffOnlyIds_uuid_intro hu2 hu1
            (ih t1.length (by omega) r1 r2 (by omega) hrec)
        · rw [diffOnlyIds_cons, if_pos (by simp [hw1, hw2]), hu2, hu1]
          have hdw1len : ((c1 :: t1).dropWhile isWordChar).length ≤ t1.length := by
            rw [List.dropWhile_cons, if_pos hw1]
            exact length_dropWhile_le_self _ t1
          have hrec' := ih t1.length (by omega) _ _ (by omega) hrec
          have hA' : ((c2 :: t2).takeWhile isWordChar == (c1 :: t1).takeWhile isWordChar
              || ((wordClass ((c2 :: t2).takeWhile isWordChar)).isSome
                  && wordClass ((c2 :: t2).takeWhile isWordChar)
                    == wordClass ((c1 :: t1).takeWhile isWordChar))) = true := by
            rw [Bool.or_eq_true] at hA ⊢
            cases hA with
            | inl hx =>
              left
              rw [eq_of_beq hx]
              simp
            | inr hx =>
              rw [Bool.and_eq_true] at hx
              right
              rw [Bool.and_eq_true]
              have hcc := eq_of_beq hx.2
              constructor
              · rw [← hcc]
                exact hx.1
              · rw [hcc]
                simp
          show (((c2 :: t2).takeWhile isWordChar == (c1 :: t1).takeWhile isWordChar
              || ((wordClass ((c2 :: t2).takeWhile isWordChar)).isSome
                  && wordClass ((c2 :: t2).takeWhile isWordChar)
                    == wordClass ((c1 :: t1).takeWhile isWordChar)))
              && diffOnlyIds ((c2 :: t2).dropWhile isWordChar)
                  ((c1 :: t1).dropWhile isWordChar)) = true
          rw [Bool.and_eq_true]
          exact ⟨hA', hrec'⟩
      · exact diffOnlyIds_sep_intro hw1 (ih t1.length (by omega) t1 t2 (by omega) hrec)

theorem diffOnlyIds_symm {l1 l2 : List Char} (h : diffOnlyIds l1 l2 = true) :
    diffOnlyIds l2 l1 = true :=
  diffOnlyIds_symm_aux l1.length l1 l2 (le_refl _) h

/-- The relation is preserved by stripping leading whitespace. -/
theorem diffOnlyIds_dropWhile_ws : ∀ (l1 l2 : List Char), diffOnlyIds l1 l2 = true →
    diffOnlyIds (l1.dropWhile Char.isWhitespace) (l2.dropWhile Char.isWhitespace) = true := by
  intro l1
  induction l1 with
  | nil =>
    intro l2 h
    cases l2 with
    | nil => exact h
    | cons c2 t2 =>
      rw [diffOnlyIds_nil_cons] at h
      exact absurd h (by decide)
  | cons c1 t1 ih =>
    intro l2 h
    cases l2 with
    | nil =>
      rw [diffOnlyIds_cons_nil] at h
      exact absurd h (by decide)
    | cons c2 t2 =>
      rcases diffOnlyIds_cons_inv h with ⟨hw1, hw2, -⟩ | ⟨hw1, hw2, rfl, hrec⟩
      · rw [List.dropWhile_cons, if_neg (by simp [word_not_ws c1 hw1]),
          List.dropWhile_cons, if_neg (by simp [word_not_ws c2 hw2])]
        exact h
      · by_cases hws : c1.isWhitespace = true
        · rw [List.dropWhile_cons, if_pos hws, List.dropWhile_cons, if_pos hws]
          exact ih t2 hrec
        · rw [List.dropWhile_cons, if_neg hws, List.dropWhile_cons, if_neg hws]
          exact h

/-- Transport of a `run ++ separator` needle prefix along the relation: the
run's class is `none`, so the related line starts with the same run, and the
following separator is matched character-for-character. -/
theorem rel_prefix_run_sep {w : List Char} (hwne : w ≠ [])
    (hall : w.all isWordChar = true) (hclass : wordClass w = none)
    (hwlen : w.length < 36) {sep : Char} (hsep : isWordChar sep = false)
    (hsepdash : isHexDash sep = false)
    {l1 l2 : List Char} (h : diffOnlyIds l1 l2 = true)
    (hp : (w ++ [sep]).isPrefixOf l1 = true) : (w ++ [sep]).isPrefixOf l2 = true := by
  obtain ⟨rest, hrest⟩ := isPrefixOf_decomp hp
  have hl1 : l1 = w ++ (sep :: rest) := by
    rw [hrest, List.append_assoc]
    rfl
  subst hl1
  have hu1 : uuidSplit (w ++ sep :: rest) = none :=
    uuidSplit_none_of_sep rest hwlen hsepdash
  obtain ⟨w0, ws, rfl⟩ : ∃ w0 ws, w = w0 :: ws := by
    cases w with
    | nil => exact absurd rfl hwne
    | cons w0 ws => exact ⟨w0, ws, rfl⟩
  have hw0 : isWordChar w0 = true := by
    rw [List.all_cons, Bool.and_eq_true] at hall
    exact hall.1
  rw [List.cons_append] at h hu1
  cases l2 with
  | nil =>
    rw [diffOnlyIds_cons_nil] at h
    exact absurd h (by decide)
  | cons c2 t2 =>
    rcases diffOnlyIds_cons_inv h with ⟨hw1, hw2, hcase⟩ | ⟨hw1, hw2, rfl, hrec⟩
    · rcases hcase with ⟨r1, r2, hu1', hu2', -⟩ | ⟨hu1', hu2', hA, hrec⟩
      · rw [hu1] at hu1'
        cases hu1'
      · have hd := takeWhile_append_run isWordChar (w0 :: ws) (sep :: rest) hall
          (Or.inr ⟨sep, rest, rfl, hsep⟩)
        rw [List.cons_append] at hd
        rw [hd.1] at hA
        rw [hd.2] at hrec
        have hw12 := rel_run_eq hA hclass
        cases hdw2 : (c2 :: t2).dropWhile isWordChar with
        | nil =>
          rw [hdw2, diffOnlyIds_cons_nil] at hrec
          exact absurd hrec (by decide)
        | cons d2 dt2 =>
          rw [hdw2] at hrec
          rcases diffOnlyIds_cons_inv hrec with ⟨hx, -, -⟩ | ⟨-, -, rfl, -⟩
          · rw [hsep] at hx
            cases hx
          · have hl2 : c2 :: t2 = (w0 :: ws) ++ (sep :: dt2) := by
              conv_lhs => rw [← List.takeWhile_append_dropWhile isWordChar (c2 :: t2)]
              rw [← hw12, hdw2]
            rw [hl2, show (w0 :: ws) ++ (sep :: dt2)
              = ((w0 :: ws) ++ [sep]) ++ dt2 by rw [List.append_assoc]; rfl]
            exact isPrefixOf_append_self _ _
    · rw [hw0] at hw1
      cases hw1

theorem cb_no_match {b s1 rest : List Char}
    (hbdash : ∀ c ∈ b, isHexDash c = true)
    (hs1 : s1 = [] ∨ ∃ d t, s1 = d :: t ∧ isWordChar d = false)
    (heq : b ++ s1 = "Caused by:".toList ++ rest) : False := by
  have heq' : b ++ s1 = ['C', 'a']
      ++ ('u' :: 's' :: 'e' :: 'd' :: ' ' :: 'b' :: 'y' :: ':' :: rest) := by
    rw [heq]
    rfl
  have hlen2 : (['C', 'a'] : List Char).length ≤ b.length :=
    needle_le_run ['C', 'a'] b s1 _ (by decide) hs1 heq'
  obtain ⟨b', hb1, hb2⟩ := append_eq_of_le ['C', 'a'] b s1 _ heq' hlen2
  cases b' with
  | nil =>
    rw [List.nil_append] at hb2
    rcases hs1 with rfl | ⟨d, t, hdt, hd⟩
    · cases hb2
    · rw [hdt] at hb2
      injection hb2 with h1 _
      rw [h1] at hd
      exact absurd hd (by decide)
  | cons z b'' =>
    rw [List.cons_append] at hb2
    injection hb2 with h1 _
    have hz : isHexDash z = true :=
      hbdash z (by rw [hb1]; exact List.mem_append_right _ (List.mem_cons_self _ _))
    rw [h1] at hz
    exact absurd hz (by decide)

theorem cb_run_match {b s1 rest : List Char}
    (hbword : ∀ c ∈ b, isWordChar c = true)
    (hs1 : s1 = [] ∨ ∃ d t, s1 = d :: t ∧ isWordChar d = false)
    (heq : b ++ s1 = "Caused by:".toList ++ rest) :
    b = "Caused".toList ∧ s1 = ' ' :: ('b' :: 'y' :: ':' :: rest) := by
  have heq' : b ++ s1 = "Caused".toList ++ (' ' :: 'b' :: 'y' :: ':' :: rest) := by
    rw [heq]
    rfl
  have hlen6 : ("Caused".toList).length ≤ b.length :=
    needle_le_run "Caused".toList b s1 _ (by decide) hs1 heq'
  obtain ⟨b', hb1, hb2⟩ := append_eq_of_le "Caused".toList b s1 _ heq' hlen6
  cases b' with
  | nil =>
    rw [List.append_nil] at hb1
    rw [List.nil_append] at hb2
    exact ⟨hb1, hb2⟩
  | cons z b'' =>
    rw [List.cons_append] at hb2
    injection hb2 with h1 _
    have hz : isWordChar z = true :=
      hbword z (by rw [hb1]; exact List.mem_append_right _ (List.mem_cons_self _ _))
    rw [h1] at hz
    exact absurd hz (by decide)

theorem st_no_match_dash {b s1 rest : List Char} (hbne : b ≠ [])
    (hbdash : ∀ c ∈ b, isHexDash c = true)
    (heq : b ++ s1 = "StackTrace".toList ++ rest) : False := by
  cases b with
  | nil => exact hbne rfl
  | cons z b'' =>
    have heq' : z :: (b'' ++ s1) = 'S' :: ("tackTrace".toList ++ rest) := by
      rw [← List.cons_append, heq]
      rfl
    injection heq' with h1 _
    have hz := hbdash z (List.mem_cons_self _ _)
    rw [h1] at hz
    exact absurd hz (by decide)

theorem st_run_match {b s1 rest : List Char}
    (hs1 : s1 = [] ∨ ∃ d t, s1 = d :: t ∧ isWordChar d = false)
    (heq : b ++ s1 = "StackTrace".toList ++ rest) :
    ∃ b', b = "StackTrace".toList ++ b' := by
  have hlen := needle_le_run "StackTrace".toList b s1 rest (by decide) hs1 heq
  obtain ⟨b', hb1, -⟩ := append_eq_of_le _ b s1 _ heq hlen
  exact ⟨b', hb1⟩

/-- Transport of a `Caused by:` substring along the relation. -/
theorem rel_contains_cb : ∀ (n : Nat) (l1 l2 : List Char), l1.length ≤ n →
    diffOnlyIds l1 l2 = true → containsSub "Caused by:".toList l1 = true →
    containsSub "Caused by:".toList l2 = true := by
  intro n
  induction n using Nat.strong_induction_on with
  | _ n ih =>
    intro l1 l2 hl h hcont
    match l1, l2 with
    | [], [] => exact hcont
    | [], c2 :: t2 =>
      rw [diffOnlyIds_nil_cons] at h
      exact absurd h (by decide)
    | c1 :: t1, [] =>
      rw [diffOnlyIds_cons_nil] at h
      exact absurd h (by decide)
    | c1 :: t1, c2 :: t2 =>
      simp only [List.length_cons] at hl
      rcases diffOnlyIds_cons_inv h with ⟨hw1, hw2, hcase⟩ | ⟨hw1, hw2, rfl, hrec⟩
      · rcases hcase with ⟨r1, r2, hu1, hu2, hrec⟩ | ⟨hu1, hu2, hA, hrec⟩
        · obtain ⟨hrd1, hrl1⟩ := uuidSplit_some_drop hu1
          have hsplit1 : c1 :: t1 = (c1 :: t1).take 36 ++ r1 := by
            rw [hrd1, List.take_append_drop]
          have hsplit2 : c2 :: t2 = (c2 :: t2).take 36 ++ r2 := by
            rw [(uuidSplit_some_drop hu2).1, List.take_append_drop]
          have hr1len : r1.length ≤ t1.length := by
            rw [hrd1, List.length_drop]
            simp only [List.length_cons]
            omega
          rw [hsplit1] at hcont
          rcases containsSub_split _ _ hcont with ⟨a', b, hdec, hbne, hp⟩ | hin
          · exfalso
            obtain ⟨rest, hrest⟩ := isPrefixOf_decomp hp
            apply cb_no_match ?_ (uuidSplit_some_boundary hu1) hrest
            intro c hc
            apply uuidShape_all_hexDash (uuidSplit_some_shape hu1)
            rw [hdec]
            exact List.mem_append_right a' hc
          · rw [hsplit2]
            apply containsSub_append_right
            exact ih t1.length (by omega) r1 r2 (by omega) hrec hin
        · have hsplit1 : c1 :: t1
              = (c1 :: t1).takeWhile isWordChar ++ (c1 :: t1).dropWhile isWordChar :=
            (List.takeWhile_append_dropWhile isWordChar (c1 :: t1)).symm
          have hsplit2 : c2 :: t2
              = (c2 :: t2).takeWhile isWordChar ++ (c2 :: t2).dropWhile isWordChar :=
            (List.takeWhile_append_dropWhile isWordChar (c2 :: t2)).symm
          have hd1cond : (c1 :: t1).dropWhile isWordChar = []
              ∨ ∃ d t, (c1 :: t1).dropWhile isWordChar = d :: t ∧ isWordChar d = false := by
            cases hdw : (c1 :: t1).dropWhile isWordChar with
            | nil => exact Or.inl rfl
            | cons d dt => exact Or.inr ⟨d, dt, rfl, dropWhile_head_false _ _ _ _ hdw⟩
          have hw1word : ∀ c ∈ (c1 :: t1).takeWhile isWordChar, isWordChar c = true :=
            fun c hc => List.mem_takeWhile_imp hc
          have hdw1len : ((c1 :: t1).dropWhile isWordChar).length ≤ t1.length := by
            rw [List.dropWhile_cons, if_pos hw1]
            exact length_dropWhile_le_self _ t1
          rw [hsplit1] at hcont
          rcases containsSub_split _ _ hcont with ⟨a', b, hdec, hbne, hp⟩ | hin
          · obtain ⟨rest, hrest⟩ := isPrefixOf_decomp hp
            cases hcls : wordClass ((c1 :: t1).takeWhile isWordChar) with
            | some v =>
              exfalso
              have hhex := wordClass_some_all_hex hcls
              rw [List.all_eq_true] at hhex
              apply cb_no_match ?_ hd1cond hrest
              intro c hc
              have hcw1 : c ∈ (c1 :: t1).takeWhile isWordChar := by
                rw [hdec]
                exact List.mem_append_right a' hc
              unfold isHexDash
              rw [hhex c hcw1]
              rfl
            | none =>
              have hbword : ∀ c ∈ b, isWordChar c = true := fun c hc =>
                hw1word c (by rw [hdec]; exact List.mem_append_right a' hc)
              obtain ⟨hbeq, hs1eq⟩ := cb_run_match hbword hd1cond hrest
              have hw12 : (c1 :: t1).takeWhile isWordChar
                  = (c2 :: t2).takeWhile isWordChar := rel_run_eq hA hcls
              rw [hs1eq] at hrec
              cases hdw2 : (c2 :: t2).dropWhile isWordChar with
              | nil =>
                rw [hdw2, diffOnlyIds_cons_nil] at hrec
                exact absurd hrec (by decide)
              | cons d2 dt2 =>
                rw [hdw2] at hrec
                rcases diffOnlyIds_cons_inv hrec with ⟨hx, -, -⟩ | ⟨-, -, rfl, hrec2⟩
                · exact absurd hx (by decide)
                · have hpf : ((['b', 'y'] : List Char) ++ [':']).isPrefixOf
                      ('b' :: 'y' :: ':' :: rest) = true := by
                    rw [List.isPrefixOf_iff_prefix]
                    exact ⟨rest, rfl⟩
                  have htr := rel_prefix_run_sep (by decide) (by decide) (by decide)
                    (by decide) (by decide) (by decide) hrec2 hpf
                  obtain ⟨rest2, hrest2⟩ := isPrefixOf_decomp htr
                  rw [hsplit2, ← hw12, hdec, hbeq, hdw2, hrest2, List.append_assoc]
                  apply containsSub_of_prefix
                  have hform : "Caused".toList
                      ++ (' ' :: ((['b', 'y'] ++ [':']) ++ rest2))
                      = "Caused by:".toList ++ rest2 := rfl
                  rw [hform]
                  exact isPrefixOf_append_self _ _
          · rw [hsplit2]
            apply containsSub_append_right
            exact ih t1.length (by omega) _ _ (by omega) hrec hin
      · rw [containsSub_cons, Bool.or_eq_true] at hcont
        cases hcont with
        | inl hp =>
          exfalso
          obtain ⟨rest, hrest⟩ := isPrefixOf_decomp hp
          have hrest' : c1 :: t1 = 'C' :: ("aused by:".toList ++ rest) := by
            rw [hrest]
            rfl
          injection hrest' with h1 _
          rw [h1] at hw1
          exact absurd hw1 (by decide)
        | inr hin =>
          rw [containsSub_cons, Bool.or_eq_true]
          right
          exact ih t1.length (by omega) t1 t2 (by omega) hrec hin

/-- Transport of a `StackTrace` substring along the relation. -/
theorem rel_contains_st : ∀ (n : Nat) (l1 l2 : List Char), l1.length ≤ n →
    diffOnlyIds l1 l2 = true → containsSub "StackTrace".toList l1 = true →
    containsSub "StackTrace".toList l2 = true := by
  intro n
  induction n using Nat.strong_induction_on with
  | _ n ih =>
    intro l1 l2 hl h hcont
    match l1, l2 with
    | [], [] => exact hcont
    | [], c2 :: t2 =>
      rw [diffOnlyIds_nil_cons] at h
      exact absurd h (by decide)
    | c1 :: t1, [] =>
      rw [diffOnlyIds_cons_nil] at h
      exact absurd h (by decide)
    | c1 :: t1, c2 :: t2 =>
      simp only [List.length_cons] at hl
      rcases diffOnlyIds_cons_inv h with ⟨hw1, hw2, hcase⟩ | ⟨hw1, hw2, rfl, hrec⟩
      · rcases hcase with ⟨r1, r2, hu1, hu2, hrec⟩ | ⟨hu1, hu2, hA, hrec⟩
        · obtain ⟨hrd1, hrl1⟩ := uuidSplit_some_drop hu1
          have hsplit1 : c1 :: t1 = (c1 :: t1).take 36 ++ r1 := by
            rw [hrd1, List.take_append_drop]
          have hsplit2 : c2 :: t2 = (c2 :: t2).take 36 ++ r2 := by
            rw [(uuidSplit_some_drop hu2).1, List.take_append_drop]
          have hr1len : r1.length ≤ t1.length := by
            rw [hrd1, List.length_drop]
            simp only [List.length_cons]
            omega
          rw [hsplit1] at hcont
          rcases containsSub_split _ _ hcont with ⟨a', b, hdec, hbne, hp⟩ | hin
          · exfalso
            obtain ⟨rest, hrest⟩ := isPrefixOf_decomp hp
            apply st_no_match_dash hbne ?_ hrest
            intro c hc
            apply uuidShape_all_hexDash (uuidSplit_some_shape hu1)
            rw [hdec]
            exact List.mem_append_right a' hc
          · rw [hsplit2]
            apply containsSub_append_right
            exact ih t1.length (by omega) r1 r2 (by omega) hrec hin
        · have hsplit1 : c1 :: t1
              = (c1 :: t1).takeWhile isWordChar ++ (c1 :: t1).dropWhile isWordChar :=
            (List.takeWhile_append_dropWhile isWordChar (c1 :: t1)).symm
          have hsplit2 : c2 :: t2
              = (c2 :: t2).takeWhile isWordChar ++ (c2 :: t2).dropWhile isWordChar :=
            (List.takeWhile_append_dropWhile isWordChar (c2 :: t2)).symm
          have hd1cond : (c1 :: t1).dropWhile isWordChar = []
              ∨ ∃ d t, (c1 :: t1).dropWhile isWordChar = d :: t ∧ isWordChar d = false := by
            cases hdw : (c1 :: t1).dropWhile isWordChar with
            | nil => exact Or.inl rfl
            | cons d dt => exact Or.inr ⟨d, dt, rfl, dropWhile_head_false _ _ _ _ hdw⟩
          have hw1word : ∀ c ∈ (c1 :: t1).takeWhile isWordChar, isWordChar c = true :=
            fun c hc => List.mem_takeWhile_imp hc
          have hdw1len : ((c1 :: t1).dropWhile isWordChar).length ≤ t1.length := by
            rw [List.dropWhile_cons, if_pos hw1]
            exact length_dropWhile_le_self _ t1
          rw [hsplit1] at hcont
          rcases containsSub_split _ _ hcont with ⟨a', b, hdec, hbne, hp⟩ | hin
          · obtain ⟨rest, hrest⟩ := isPrefixOf_decomp hp
            cases hcls : wordClass ((c1 :: t1).takeWhile isWordChar) with
            | some v =>
              exfalso
              have hhex := wordClass_some_all_hex hcls
              rw [List.all_eq_true] at hhex
              apply st_no_match_dash hbne ?_ hrest
              intro c hc
              have hcw1 : c ∈ (c1 :: t1).takeWhile isWordChar := by
                rw [hdec]
                exact List.mem_append_right a' hc
              unfold isHexDash
              rw [hhex c hcw1]
              rfl
            | none =>
              have hw12 : (c1 :: t1).takeWhile isWordChar
                  = (c2 :: t2).takeWhile isWordChar := rel_run_eq hA hcls
              obtain ⟨b', hbdecomp⟩ := st_run_match hd1cond hrest
              rw [hsplit2, ← hw12, hdec, List.append_assoc]
              apply containsSub_of_prefix
              rw [hbdecomp, List.append_assoc]
              exact isPrefixOf_append_self _ _
          · rw [hsplit2]
            apply containsSub_append_right
            exact ih t1.length (by omega) _ _ (by omega) hrec hin
      · rw [containsSub_cons, Bool.or_eq_true] at hcont
        cases hcont with
        | inl hp =>
          exfalso
          obtain ⟨rest, hrest⟩ := isPrefixOf_decomp hp
          have hrest' : c1 :: t1 = 'S' :: ("tackTrace".toList ++ rest) := by
            rw [hrest]
            rfl
          injection hrest' with h1 _
          rw [h1] at hw1
          exact absurd hw1 (by decide)
        | inr hin =>
          rw [containsSub_cons, Bool.or_eq_true]
          right
          exact ih t1.length (by omega) t1 t2 (by omega) hrec hin

/-- Lines that differ only in embedded identifiers are classified identically
by the frame-line filter. -/
theorem rel_isFrameLine {l1 l2 : List Char} (h : diffOnlyIds l1 l2 = true) :
    isFrameLine l1 = isFrameLine l2 := by
  have hsymm := diffOnlyIds_symm h
  have hds := diffOnlyIds_dropWhile_ws l1 l2 h
  have hds' := diffOnlyIds_dropWhile_ws l2 l1 hsymm
  have hat : ("at ".toList).isPrefixOf (l1.dropWhile Char.isWhitespace)
      = ("at ".toList).isPrefixOf (l2.dropWhile Char.isWhitespace) := by
    apply bool_eq_of_imp
    · intro hx
      have hx' : ((['a', 't'] : List Char) ++ [' ']).isPrefixOf
          (l1.dropWhile Char.isWhitespace) = true := hx
      exact rel_prefix_run_sep (by decide) (by decide) (by decide) (by decide)
        (by decide) (by decide) hds hx'
    · intro hx
      have hx' : ((['a', 't'] : List Char) ++ [' ']).isPrefixOf
          (l2.dropWhile Char.isWhitespace) = true := hx
      exact rel_prefix_run_sep (by decide) (by decide) (by decide) (by decide)
        (by decide) (by decide) hds' hx'
  have hfile : ("File ".toList).isPrefixOf (l1.dropWhile Char.isWhitespace)
      = ("File ".toList).isPrefixOf (l2.dropWhile Char.isWhitespace) := by
    apply bool_eq_of_imp
    · intro hx
      have hx' : ((['F', 'i', 'l', 'e'] : List Char) ++ [' ']).isPrefixOf
          (l1.dropWhile Char.isWhitespace) = true := hx
      exact rel_prefix_run_sep (by decide) (by decide) (by decide) (by decide)
        (by decide) (by decide) hds hx'
    · intro hx
      have hx' : ((['F', 'i', 'l', 'e'] : List Char) ++ [' ']).isPrefixOf
          (l2.dropWhile Char.isWhitespace) = true := hx
      exact rel_prefix_run_sep (by decide) (by decide) (by decide) (by decide)
        (by decide) (by decide) hds' hx'
  have hcb : containsSub ("Caused by:".toList) l1 = containsSub ("Caused by:".toList) l2 := by
    apply bool_eq_of_imp
    · exact rel_contains_cb l1.length l1 l2 (le_refl _) h
    · exact rel_contains_cb l2.length l2 l1 (le_refl _) hsymm
  have hst : containsSub ("StackTrace".toList) l1 = containsSub ("StackTrace".toList) l2 := by
    apply bool_eq_of_imp
    · exact rel_contains_st l1.length l1 l2 (le_refl _) h
    · exact rel_contains_st l2.length l2 l1 (le_refl _) hsymm
  unfold isFrameLine
  rw [hat, hfile, hcb, hst]

theorem rel_normalize_strip {l1 l2 : List Char} (h : diffOnlyIds l1 l2 = true)
    (limit : Nat) : normalize_text_for_fingerprint (pyStrip l1) limit
      = normalize_text_for_fingerprint (pyStrip l2) limit := by
  rw [normalize_pyStrip, normalize_pyStrip, diffOnlyIds_collapse h]

theorem rel_normalize {l1 l2 : List Char} (h : diffOnlyIds l1 l2 = true)
    (limit : Nat) : normalize_text_for_fingerprint l1 limit
      = normalize_text_for_fingerprint l2 limit := by
  unfold normalize_text_for_fingerprint
  rw [diffOnlyIds_collapse h]

theorem blocks_head_rel {b1 b2 : List (List Char)}
    (h : blocksDiffOnlyIds b1 b2 = true) :
    diffOnlyIds (b1.headD []) (b2.headD []) = true := by
  unfold blocksDiffOnlyIds at h
  rw [Bool.and_eq_true] at h
  obtain ⟨hlen, hall⟩ := h
  cases b1 with
  | nil =>
    cases b2 with
    | nil => rfl
    | cons y b2' =>
      have : (0 : Nat) = b2'.length + 1 := by
        have := eq_of_beq hlen
        simpa using this
      omega
  | cons x b1' =>
    cases b2 with
    | nil =>
      have : b1'.length + 1 = (0 : Nat) := by
        have := eq_of_beq hlen
        simpa using this
      omega
    | cons y b2' =>
      rw [List.zip_cons_cons, List.all_cons, Bool.and_eq_true] at hall
      exact hall.1

theorem blocks_tail_facts {b1 b2 : List (List Char)}
    (h : blocksDiffOnlyIds b1 b2 = true) :
    (b1.drop 1).length = (b2.drop 1).length
      ∧ (((b1.drop 1).zip (b2.drop 1)).all fun p => diffOnlyIds p.1 p.2) = true := by
  unfold blocksDiffOnlyIds at h
  rw [Bool.and_eq_true] at h
  obtain ⟨hlen, hall⟩ := h
  have hlen' := eq_of_beq hlen
  cases b1 with
  | nil =>
    cases b2 with
    | nil => exact ⟨rfl, rfl⟩
    | cons y b2' => simp at hlen'
  | cons x b1' =>
    cases b2 with
    | nil => simp at hlen'
    | cons y b2' =>
      rw [List.zip_cons_cons, List.all_cons, Bool.and_eq_true] at hall
      simp only [List.length_cons] at hlen'
      exact ⟨by simpa using hlen', hall.2⟩

/-- The filtered, normalized frame sequences of pairwise-related line lists
coincide. -/
theorem frames_filter_map_eq : ∀ (L1 L2 : List (List Char)), L1.length = L2.length →
    ((L1.zip L2).all fun p => diffOnlyIds p.1 p.2) = true →
    (L1.filter isFrameLine).map (fun l => normalize_text_for_fingerprint (pyStrip l) 140)
      = (L2.filter isFrameLine).map
          (fun l => normalize_text_for_fingerprint (pyStrip l) 140) := by
  intro L1
  induction L1 with
  | nil =>
    intro L2 hlen _
    cases L2 with
    | nil => rfl
    | cons y L2' => simp at hlen
  | cons x L1' ih =>
    intro L2 hlen hall
    cases L2 with
    | nil => simp at hlen
    | cons y L2' =>
      rw [List.zip_cons_cons, List.all_cons, Bool.and_eq_true] at hall
      simp only [List.length_cons] at hlen
      have hrest := ih L2' (by omega) hall.2
      rw [List.filter_cons, List.filter_cons, rel_isFrameLine hall.1]
      by_cases hf : isFrameLine y = true
      · rw [if_pos hf, if_pos hf, List.map_cons, List.map_cons, hrest,
          rel_normalize_strip hall.1 140]
      · rw [if_neg hf, if_neg hf, hrest]

theorem rel_topFrames {b1 b2 : List (List Char)}
    (h : blocksDiffOnlyIds b1 b2 = true) : topFrames b1 = topFrames b2 := by
  obtain ⟨hlen, hall⟩ := blocks_tail_facts h
  unfold topFrames frameLines
  rw [List.map_map, List.map_map]
  have hcomp : ((fun fl => normalize_text_for_fingerprint fl 140) ∘ pyStrip)
      = fun l => normalize_text_for_fingerprint (pyStrip l) 140 := rfl
  rw [hcomp, List.map_take, List.map_take,
    frames_filter_map_eq (b1.drop 1) (b2.drop 1) hlen hall]

theorem rel_fpSrc {metaType : List Char} {b1 b2 : List (List Char)}
    (hrel : blocksDiffOnlyIds b1 b2 = true)
    (htype : errTypeOf metaType b1 = errTypeOf metaType b2) :
    fpSrc metaType b1 = fpSrc metaType b2 := by
  unfold fpSrc
  rw [htype, rel_normalize (blocks_head_rel hrel) 220, rel_topFrames hrel]

set_option maxHeartbeats 1000000 in
/-- C3 (amended): if two error blocks differ only in embedded volatile
identifiers (UUIDs, hex runs of length at least 8, decimal numerals) AND the
raw-text error-type extraction agrees on them, then
`extract_error_events_universal` assigns them the same fingerprint: the
normalized message stem and the normalized top-5 frame lines are invariant
under identifier substitution, so the hashed fingerprint source coincides.
The extra error-type hypothesis is necessary: the type is taken from the raw
head line, as the recorded counterexample shows. -/
theorem fingerprint_stability_amended (metaType : List Char) (p1 p2 : Option String)
    (b1 b2 : List (List Char)) (hrel : blocksDiffOnlyIds b1 b2 = true)
    (htype : errTypeOf metaType b1 = errTypeOf metaType b2) :
    (eventOfBlock metaType p1 b1).fingerprint
      = (eventOfBlock metaType p2 b2).fingerprint := by
  show sha1Hex (fpSrc metaType b1) = sha1Hex (fpSrc metaType b2)
  rw [rel_fpSrc hrel htype]

set_option maxRecDepth 400000 in
set_option maxHeartbeats 2000000 in
theorem fingerprint_stability_amended_witness :
    blocksDiffOnlyIds exBlockC3c exBlockC3d = true
      ∧ errTypeOf "Error".toList exBlockC3c = errTypeOf "Error".toList exBlockC3d
      ∧ (eventOfBlock "Error".toList none exBlockC3c).fingerprint
          = (eventOfBlock "Error".toList none exBlockC3d).fingerprint :=
  ⟨by decide, by decide,
    fingerprint_stability_amended "Error".toList none none exBlockC3c exBlockC3d
      (by decide) (by decide)⟩

end LogChecker

